import Mathlib

/-!
Verification development for the candidate-intelligence pipeline
(`main/agent.py`, `main/jobpost_candidate_ranker.py`, `main/tasks.py`,
`candidates/resume_parser.py`, `candidates/tasks.py`).

Python strings are modelled as `List Char` (ASCII fragment); machine-level
behaviour that the code delegates to external services (language model calls,
JSON parsing of model output, the token encoder, the database rows) is
modelled by explicit function parameters.  Fallible Python code is modelled
with `Except`/`Option`; the distinct exception classes that matter
(`ValueError` raised by the guardrail, `IndexError`/`AttributeError` raised
by slips in the parsing helpers) are kept apart in `PyErr`.
-/

/-- Python whitespace characters recognised by `str.strip`, `str.split()` and
the regex class `\s` (ASCII fragment). -/
def isPySpace (c : Char) : Bool :=
  c = ' ' || c = '\t' || c = '\n' || c = '\r' || c = '\x0B' || c = '\x0C'

/-- Regex word characters (`\w`, ASCII fragment): letters, digits, underscore.
Word boundaries `\b` are defined from this classification. -/
def isWordChar (c : Char) : Bool :=
  c.isAlphanum || c = '_'

/-- Python `str.lower()` (ASCII fragment). -/
def pyLower (s : List Char) : List Char :=
  s.map Char.toLower

/-- Python substring test `pat in s`. -/
def containsSub (pat : List Char) : List Char → Bool
  | [] => pat.isEmpty
  | c :: t => pat.isPrefixOf (c :: t) || containsSub pat t

/-- Drop the longest suffix whose characters satisfy `p`
(Python `str.rstrip` with the corresponding character class). -/
def dropTrailing (p : Char → Bool) : List Char → List Char
  | [] => []
  | c :: t =>
    match dropTrailing p t with
    | [] => if p c then [] else [c]
    | r => c :: r

/-- Python `str.strip()`: remove leading and trailing whitespace. -/
def pyStrip (s : List Char) : List Char :=
  dropTrailing isPySpace (s.dropWhile isPySpace)

/-- Collapse every whitespace run to a single space; `prevSp` records whether
the previously emitted character closed a run.  Together with `pyStrip` this
implements Python `re.sub(r"\s+", " ", s.strip())`. -/
def collapseWs (prevSp : Bool) : List Char → List Char
  | [] => []
  | c :: t =>
    if isPySpace c then
      (if prevSp then collapseWs true t else ' ' :: collapseWs true t)
    else c :: collapseWs false t

/-- `_normalize_sql` from `main/agent.py`:
`re.sub(r"\s+", " ", sql.strip())`. -/
def pyNormalize (s : List Char) : List Char :=
  collapseWs false (pyStrip s)

/-- Case-insensitive literal prefix test (the keyword is given lowercase),
as performed by a regex literal under `re.I`. -/
def ciPrefix : List Char → List Char → Bool
  | [], _ => true
  | _ :: _, [] => false
  | k :: ks, c :: cs => (c.toLower = k) && ciPrefix ks cs

/-- The character after the matched keyword must not be a word character
(the closing `\b` of a regex `\bkw\b` for a keyword made of word
characters). -/
def afterBoundary (kw s : List Char) : Bool :=
  match s.drop kw.length with
  | [] => true
  | d :: _ => !isWordChar d

/-- Scanner for `re.search(r"\b<kw>\b", s, re.I)` where `kw` consists of word
characters; `prevW` tells whether the previous character was a word
character. -/
def wholeWordAux (kw : List Char) (prevW : Bool) : List Char → Bool
  | [] => false
  | c :: t =>
    (!prevW && ciPrefix kw (c :: t) && afterBoundary kw (c :: t))
      || wholeWordAux kw (isWordChar c) t

/-- Case-insensitive whole-word occurrence of a word-character keyword. -/
def wholeWordCI (kw s : List Char) : Bool :=
  wholeWordAux kw false s

/-- Scanner for `re.search(r"\b@@\b", s)`.  Because `@` is not a word
character, the surrounding `\b` require a word character immediately before
the first `@` and immediately after the second. -/
def atAtAux (prevW : Bool) : List Char → Bool
  | [] => false
  | c :: t =>
    (prevW && c = '@' &&
      (match t with
       | [] => false
       | d :: u =>
         d = '@' && (match u with
                     | [] => false
                     | e :: _ => isWordChar e)))
      || atAtAux (isWordChar c) t

/-- Occurrence of `@@` with word characters directly on both sides. -/
def atAtMatch (s : List Char) : Bool :=
  atAtAux false s

/-- The word-character patterns of `FORBIDDEN_SQL_PATTERNS` in
`main/agent.py` (each is wrapped in `\b ... \b` and matched with `re.I`);
the `\b@@\b` pattern is handled by `atAtMatch`. -/
def FORBIDDEN_WORD_PATTERNS : List (List Char) :=
  [ r"to_tsvector".toList
  , r"to_tsquery".toList
  , r"plainto_tsquery".toList
  , r"phraseto_tsquery".toList
  , r"websearch_to_tsquery".toList
  , r"insert".toList
  , r"update".toList
  , r"delete".toList
  , r"drop".toList
  , r"alter".toList
  , r"truncate".toList
  , r"create".toList ]

/-- Test whether any entry of `FORBIDDEN_SQL_PATTERNS` matches. -/
def matchesForbidden (s : List Char) : Bool :=
  FORBIDDEN_WORD_PATTERNS.any (fun kw => wholeWordCI kw s) || atAtMatch s

/-- Numeric value of a digit run (`int` applied to the matched digits). -/
def digitsToNat (ds : List Char) : Nat :=
  ds.foldl (fun a c => a * 10 + (c.toNat - 48)) 0

/-- The literal of the limit regexes. -/
def limitKw : List Char := r"limit".toList

/-- Attempt to match `limit\s+\d+` (case-insensitively) at the head of `s`;
on success return the numeric value and the remainder after the digit run.
The digit run is maximal, so the remainder never starts with a digit. -/
def limitMatchAt (s : List Char) : Option (Nat × List Char) :=
  if ciPrefix limitKw s then
    let r1 := s.drop 5
    let w := r1.takeWhile isPySpace
    if w.isEmpty then none
    else
      let r2 := r1.dropWhile isPySpace
      let d := r2.takeWhile Char.isDigit
      if d.isEmpty then none
      else some (digitsToNat d, r2.dropWhile Char.isDigit)
  else none

/-- Scanner for `re.search(r"\blimit\s+(\d+)", ...)`: value of the leftmost
match, if any.  `prevW` carries the word-boundary context. -/
def findLimitAux (prevW : Bool) : List Char → Option Nat
  | [] => none
  | c :: t =>
    match (if !prevW then limitMatchAt (c :: t) else none) with
    | some (v, _) => some v
    | none => findLimitAux (isWordChar c) t

/-- Value captured by `re.search(r"\blimit\s+(\d+)", sql.lower())`; matching
case-insensitively on the original string is equivalent. -/
def findLimitNum (s : List Char) : Option Nat :=
  findLimitAux false s

/-- Replacement text of the clamp `re.sub(r"\blimit\s+\d+", f"LIMIT {MAX_LIMIT}", ...)`
with `MAX_LIMIT = 20`. -/
def limit20Str : List Char := r"LIMIT 20".toList

/-- Fuelled scanner for the clamping `re.sub`: every non-overlapping leftmost
match of `\blimit\s+\d+` (case-insensitive) is replaced by `LIMIT 20`.  After
a match the scan resumes after the digits, whose last character is a word
character, so the boundary context resumes as `true`. -/
def replaceLimitsAux : Nat → Bool → List Char → List Char
  | 0, _, s => s
  | _ + 1, _, [] => []
  | fuel + 1, prevW, c :: t =>
    match (if !prevW then limitMatchAt (c :: t) else none) with
    | some (_, rest) => limit20Str ++ replaceLimitsAux fuel true rest
    | none => c :: replaceLimitsAux fuel (isWordChar c) t

/-- `re.sub(r"\blimit\s+\d+", "LIMIT 20", sql, flags=re.I)`. -/
def replaceLimits (s : List Char) : List Char :=
  replaceLimitsAux s.length false s

/-- Scanner deciding whether some position of `s` matches `\blimit\s+\d+`
(case-insensitively) with a captured value satisfying `P`. -/
def hasLimitAux (P : Nat → Bool) (prevW : Bool) : List Char → Bool
  | [] => false
  | c :: t =>
    (match (if !prevW then limitMatchAt (c :: t) else none) with
     | some (v, _) => P v
     | none => false) || hasLimitAux P (isWordChar c) t

/-- Some `LIMIT` clause of `s` has a value satisfying `P`. -/
def hasLimitMatching (P : Nat → Bool) (s : List Char) : Bool :=
  hasLimitAux P false s

/-- Exception classes that `validate_and_sanitize_sql` can raise:
the guardrail's own `ValueError`, the `IndexError` escaping
`_extract_referenced_tables`, and the `AttributeError` escaping
`_enforce_limit`. -/
inductive PyErr
  | valueError
  | indexError
  | attributeError
deriving DecidableEq

/-- `MAX_LIMIT` from `main/agent.py`. -/
def MAX_LIMIT : Nat := 20

/-- `DEFAULT_LIMIT` from `main/agent.py`. -/
def DEFAULT_LIMIT : Nat := 10

/-- Text appended when no `LIMIT` is present (`f"{sql} LIMIT {DEFAULT_LIMIT}"`). -/
def default10Str : List Char := r" LIMIT 10".toList

/-- `_enforce_limit` from `main/agent.py`.  Note that the presence check is a
plain substring test for `"limit"` while the numeric extraction requires
`\blimit\s+(\d+)`; when the substring is present but the regex finds nothing,
`re.search` returns `None` and `.group(1)` raises `AttributeError`. -/
def _enforce_limit (sql : List Char) : Except PyErr (List Char) :=
  if !(containsSub limitKw (pyLower sql)) then .ok (sql ++ default10Str)
  else
    match findLimitNum sql with
    | none => .error .attributeError
    | some n => if n > MAX_LIMIT then .ok (replaceLimits sql) else .ok sql

/-- Separator used by `_extract_referenced_tables` for `FROM`. -/
def fromSep : List Char := r" from ".toList

/-- Separator used by `_extract_referenced_tables` for `JOIN`. -/
def joinSep : List Char := r" join ".toList

/-- Fuelled worker for Python `str.split(sep)` (leftmost, non-overlapping). -/
def splitOnAux (sep : List Char) : Nat → List Char → List Char → List (List Char)
  | 0, s, acc => [acc.reverse ++ s]
  | fuel + 1, s, acc =>
    if sep.isPrefixOf s then acc.reverse :: splitOnAux sep fuel (s.drop sep.length) []
    else
      match s with
      | [] => [acc.reverse]
      | c :: t => splitOnAux sep fuel t (c :: acc)

/-- Python `s.split(sep)` for a nonempty separator. -/
def splitOnList (sep s : List Char) : List (List Char) :=
  splitOnAux sep s.length s []

/-- Worker for Python `str.split()` (split on whitespace runs, no empties). -/
def wordsAux : List Char → List Char → List (List Char)
  | [], acc => if acc.isEmpty then [] else [acc.reverse]
  | c :: t, acc =>
    if isPySpace c then
      (if acc.isEmpty then wordsAux t [] else acc.reverse :: wordsAux t [])
    else wordsAux t (c :: acc)

/-- Python `s.split()` with no argument. -/
def pyWords (s : List Char) : List (List Char) :=
  wordsAux s []

/-- Separator `"."` used when stripping table/column qualifiers. -/
def dotSep : List Char := r".".toList

/-- Token post-processing of `_extract_referenced_tables`:
`token.replace('"', "").split(".")[-1]` followed by `.rstrip(",")`. -/
def cleanTableToken (tok : List Char) : List Char :=
  dropTrailing (fun c => c = ',')
    ((splitOnList dotSep (tok.filter (fun c => c ≠ '"'))).getLastD [])

/-- Process the split parts: `part.strip().split()[0]` raises `IndexError`
(modelled as `Except.error ()`) when a part contains no token. -/
def extractTablesFromParts : List (List Char) → Except Unit (List (List Char))
  | [] => .ok []
  | p :: ps =>
    match pyWords p with
    | [] => .error ()
    | tok :: _ =>
      match extractTablesFromParts ps with
      | .error e => .error e
      | .ok rest => .ok (cleanTableToken tok :: rest)

/-- `_extract_referenced_tables` from `main/agent.py`: split the lowercased
SQL on the literal separators `" from "` and `" join "` and take the first
whitespace token of every part after the first.  (The source collects the
tokens into a `set`; only membership is ever used, so a list is kept.) -/
def _extract_referenced_tables (sql : List Char) : Except Unit (List (List Char)) :=
  let sqlL := pyLower sql
  extractTablesFromParts
    ((splitOnList fromSep sqlL).drop 1 ++ (splitOnList joinSep sqlL).drop 1)

/-- Literal `"select"`. -/
def selectLit : List Char := r"select".toList

/-- Literal `"from"` (the column extractor splits on the bare substring). -/
def fromLit : List Char := r"from".toList

/-- Separator `" as "` used when stripping column aliases. -/
def asSep : List Char := r" as ".toList

/-- Separator `","`. -/
def commaSep : List Char := r",".toList

/-- Fuelled worker for Python `str.replace(pat, "")`. -/
def removeAllAux (pat : List Char) : Nat → List Char → List Char
  | 0, s => s
  | fuel + 1, s =>
    if pat.isPrefixOf s then removeAllAux pat fuel (s.drop pat.length)
    else
      match s with
      | [] => []
      | c :: t => c :: removeAllAux pat fuel t

/-- Python `s.replace(pat, "")` for a nonempty pattern. -/
def removeAllSub (pat s : List Char) : List Char :=
  removeAllAux pat s.length s

/-- The star column literal excluded by `_extract_selected_columns`. -/
def starTok : List Char := ['*']

/-- `_extract_selected_columns` from `main/agent.py`. -/
def _extract_selected_columns (sql : List Char) : List (List Char) :=
  let selectPart := (splitOnList fromLit (pyLower sql)).headD []
  let cols := splitOnList commaSep (removeAllSub selectLit selectPart)
  (cols.map (fun c =>
    (splitOnList dotSep ((splitOnList asSep (pyStrip c)).headD [])).getLastD []))
    |>.filter (fun c => c ≠ starTok)

/-- `ALLOWED_TABLES` from `main/agent.py`. -/
def ALLOWED_TABLES : List (List Char) :=
  [ r"candidates_candidateprofile".toList ]

/-- `ALLOWED_COLUMNS` from `main/agent.py`. -/
def ALLOWED_COLUMNS : List (List Char) :=
  [ r"slug".toList
  , r"resume_data".toList
  , r"willing_to_relocate".toList
  , r"employment_type_preferences".toList
  , r"work_mode_preferences".toList
  , r"has_workvisa".toList
  , r"disability_categories".toList
  , r"accommodation_needs".toList
  , r"disclosure_preference".toList
  , r"workplace_accommodations".toList
  , r"expected_salary_range".toList
  , r"is_available".toList ]

/-- Literal `"is_available"`. -/
def isAvailLit : List Char := r"is_available".toList

/-- Literal `"where"`. -/
def whereLit : List Char := r"where".toList

/-- Clause appended when a `WHERE` is already present. -/
def andClause : List Char := r" AND is_available = TRUE".toList

/-- Clause appended when no `WHERE` is present. -/
def whereClause : List Char := r" WHERE is_available = TRUE".toList

/-- Literal `"ilike"`. -/
def ilikeKw : List Char := r"ilike".toList

/-- Replacement for `ilike` in the sqlite compatibility rewrite. -/
def likeStr : List Char := r"LIKE".toList

/-- Fuelled scanner for `re.sub(r"\bilike\b", "LIKE", sql, flags=re.I)`. -/
def rewriteIlikeAux : Nat → Bool → List Char → List Char
  | 0, _, s => s
  | _ + 1, _, [] => []
  | fuel + 1, prevW, c :: t =>
    if !prevW && ciPrefix ilikeKw (c :: t) && afterBoundary ilikeKw (c :: t) then
      likeStr ++ rewriteIlikeAux fuel true ((c :: t).drop 5)
    else c :: rewriteIlikeAux fuel (isWordChar c) t

/-- `re.sub(r"\bilike\b", "LIKE", sql, flags=re.I)`. -/
def rewriteIlike (s : List Char) : List Char :=
  rewriteIlikeAux s.length false s

/-- Literal `"::text"`. -/
def castTextKw : List Char := r"::text".toList

/-- Fuelled scanner for `re.sub(r"::text", "", sql, flags=re.I)`. -/
def removeCastTextAux : Nat → List Char → List Char
  | 0, s => s
  | _ + 1, [] => []
  | fuel + 1, c :: t =>
    if ciPrefix castTextKw (c :: t) then removeCastTextAux fuel ((c :: t).drop 6)
    else c :: removeCastTextAux fuel t

/-- `re.sub(r"::text", "", sql, flags=re.I)`. -/
def removeCastText (s : List Char) : List Char :=
  removeCastTextAux s.length s

/-- The configured database engine: `backend/settings.py` hardcodes
`"django.db.backends.postgresql"` for `DATABASES["default"]["ENGINE"]`. -/
def DATABASES_default_ENGINE : List Char :=
  r"django.db.backends.postgresql".toList

/-- Literal `"sqlite"`. -/
def sqliteLit : List Char := r"sqlite".toList

/-- `is_sqlite` from `main/agent.py`:
`"sqlite" in settings.DATABASES["default"]["ENGINE"].lower()`.  With the
engine configured in `backend/settings.py` this is `false`. -/
def is_sqlite : Bool :=
  containsSub sqliteLit (pyLower DATABASES_default_ENGINE)

/-- The semicolon character used by the stacking check. -/
def semicolonCh : Char := ';'

/-- `validate_and_sanitize_sql` from `main/agent.py`. -/
def validate_and_sanitize_sql (sql : List Char) : Except PyErr (List Char) :=
  if !(selectLit.isPrefixOf (pyLower sql)) then .error .valueError
  else if (dropTrailing (fun c => c = ';') (pyStrip sql)).contains semicolonCh then
    .error .valueError
  else if matchesForbidden sql then .error .valueError
  else
    match _extract_referenced_tables sql with
    | .error _ => .error .indexError
    | .ok tabs =>
      if !(tabs.all (fun t => ALLOWED_TABLES.contains t)) then .error .valueError
      else if !((_extract_selected_columns sql).all
                  (fun c => ALLOWED_COLUMNS.contains c)) then .error .valueError
      else
        match _enforce_limit sql with
        | .error e => .error e
        | .ok sql2 =>
          let sql3 :=
            if !(containsSub isAvailLit (pyLower sql2)) then
              (if containsSub whereLit (pyLower sql2) then sql2 ++ andClause
               else sql2 ++ whereClause)
            else sql2
          let sql4 :=
            if is_sqlite then removeCastText (rewriteIlike sql3) else sql3
          .ok (pyNormalize sql4)

/-- Literal `"join"`. -/
def joinLit : List Char := r"join".toList

/-- Refinement reading of the spec's table extraction, following its words:
the referenced tables are the whitespace tokens that follow a `from` or
`join` token of the lowercased statement. -/
def specReferencedTables (sql : List Char) : List (List Char) :=
  let toks := pyWords (pyLower sql)
  (toks.zip toks.tail).filterMap
    (fun p => if p.1 = fromLit || p.1 = joinLit then some p.2 else none)

/-- The `@@` operator token. -/
def atAtTok : List Char := r"@@".toList

/-- Counterexample input for C1: the statement joins the table `evil`, with a
newline between `JOIN` and the table name, so the literal separator
`" join "` used by `_extract_referenced_tables` never matches. -/
def c1BypassInput : List Char :=
  "select slug from candidates_candidateprofile join\nevil on 1=1".toList

/-- The table name smuggled past the guardrail in `c1BypassInput`. -/
def evilTok : List Char := r"evil".toList

/-- Witness input for the amended C1: a disallowed table that the extractor
does see. -/
def c1WitnessInput : List Char := r"select slug from evil_table".toList

/-- The table token extracted from `c1WitnessInput`. -/
def evilTableTok : List Char := r"evil_table".toList

/-- Counterexample input for C2: a full-text-search query using the `@@`
operator surrounded by spaces; `\b@@\b` requires word characters adjacent to
the operator, so the forbidden-pattern check does not fire. -/
def c2BypassInput : List Char :=
  r"select slug from candidates_candidateprofile where resume_data @@ 1".toList

/-- Witness input for the amended C2. -/
def c2WitnessInput : List Char := r"drop table candidates_candidateprofile".toList

/-- The keyword `drop`. -/
def dropTok : List Char := r"drop".toList

/-- Failing input for C10: contains the substring `limit` (inside
`'%limited%'`) but no numeric `LIMIT` clause, so `_enforce_limit` calls
`.group(1)` on `None`. -/
def c10FailingInput : List Char :=
  r"select slug from candidates_candidateprofile where resume_data ilike '%limited%'".toList

/-- Predicate used to state the bound of C4: a value at most `MAX_LIMIT`. -/
def leMaxLimit : Nat → Bool := fun v => decide (v ≤ MAX_LIMIT)

/-- Predicate used to state the clamp of C4: a value equal to `MAX_LIMIT`. -/
def eqMaxLimit : Nat → Bool := fun v => decide (v = MAX_LIMIT)

/-- Accepted witness input with no `LIMIT` clause. -/
def noLimitInput : List Char :=
  r"select slug from candidates_candidateprofile".toList

/-- Accepted witness input whose `LIMIT` exceeds the maximum. -/
def bigLimitInput : List Char :=
  r"select slug from candidates_candidateprofile limit 100".toList

/-- Accepted witness input whose `LIMIT` is below the maximum. -/
def smallLimitInput : List Char :=
  r"select slug from candidates_candidateprofile where is_available = TRUE limit 5".toList

/-- Candidate payload handed to the LLM ranking step
(`jobpost_candidate_ranker.py` builds `{"id", "slug", "resume_text"}`). -/
structure LLMCand where
  id : Nat
  slug : List Char
  resume_text : List Char
deriving DecidableEq

/-- One entry of the ranked result list. -/
structure RankEntry where
  candidate_id : Nat
  candidate_slug : List Char
  score : Int
  reasons : List (List Char)
deriving DecidableEq

/-- Token usage summary returned by `final_rank_with_llm`. -/
structure TokenUsage where
  input_tokens : Nat
  output_tokens : Nat
  total_tokens : Nat
deriving DecidableEq

/-- The reason recorded when scoring a candidate fails. -/
def rankingErrorMsg : List Char := r"Ranking error".toList

/-- The system message of the LLM ranking step. -/
def systemMsgTalent : List Char := r"You are an AI Talent Matcher.".toList

/-- Opening fragment of the per-candidate prompt. -/
def rankPromptPre : List Char :=
  "\nRate candidate match on a scale of 0–100.\n\nJOB:\n".toList

/-- Middle fragment of the per-candidate prompt. -/
def rankPromptMid : List Char := "\n\nCANDIDATE:\n".toList

/-- Closing fragment of the per-candidate prompt (braces of the JSON shape
written with character escapes). -/
def rankPromptPost : List Char :=
  "\n\nReturn JSON:\n\x7b\n  \"score\": number,\n  \"reasons\": [\"point1\", \"point2\", \"point3\"]\n\x7d\n".toList

/-- The f-string prompt of `final_rank_with_llm`. -/
def rankPrompt (jobDesc resumeText : List Char) : List Char :=
  rankPromptPre ++ jobDesc ++ rankPromptMid ++ resumeText ++ rankPromptPost

/-- The per-candidate body of the `final_rank_with_llm` loop, with the LLM
call and the JSON parsing of its output abstracted as parameters: `llmCall`
returns the raw message content (`none` = the API call raised) and
`parseScore` extracts the `score`/`reasons` fields (`none` = `json.loads`
or the key lookups raised).  Any failure yields the zero-score entry. -/
def rankOneCandidate (llmCall : LLMCand → Option (List Char))
    (parseScore : List Char → Option (Int × List (List Char)))
    (c : LLMCand) : RankEntry :=
  match llmCall c with
  | none => ⟨c.id, c.slug, 0, [rankingErrorMsg]⟩
  | some content =>
    match parseScore content with
    | none => ⟨c.id, c.slug, 0, [rankingErrorMsg]⟩
    | some (sc, rs) => ⟨c.id, c.slug, sc, rs⟩

/-- The accumulation loop of `final_rank_with_llm`: entries in candidate
order together with summed input tokens, output tokens, and approximate cost
(`0.01`/`0.03` per 1000 tokens, as exact rationals).  Output tokens are
counted as soon as the call returns content, even when parsing then fails;
cost is added only on full success, mirroring the statement order in the
`try` block. -/
def rankLoop (encode : List Char → Nat) (llmCall : LLMCand → Option (List Char))
    (parseScore : List Char → Option (Int × List (List Char)))
    (jobDesc : List Char) :
    List LLMCand → List RankEntry × Nat × Nat × ℚ
  | [] => ([], 0, 0, 0)
  | c :: cs =>
    let inTok := encode systemMsgTalent + encode (rankPrompt jobDesc c.resume_text)
    let rest := rankLoop encode llmCall parseScore jobDesc cs
    match llmCall c with
    | none =>
      (rankOneCandidate llmCall parseScore c :: rest.1,
        inTok + rest.2.1, rest.2.2.1, rest.2.2.2)
    | some content =>
      let outTok := encode content
      match parseScore content with
      | none =>
        (rankOneCandidate llmCall parseScore c :: rest.1,
          inTok + rest.2.1, outTok + rest.2.2.1, rest.2.2.2)
      | some _ =>
        (rankOneCandidate llmCall parseScore c :: rest.1,
          inTok + rest.2.1, outTok + rest.2.2.1,
          ((inTok : ℚ) / 1000 * (1 / 100) + (outTok : ℚ) / 1000 * (3 / 100))
            + rest.2.2.2)

/-- Descending stable sort by score (`ranked_results.sort(key=..., reverse=True)`;
Python's sort is stable, as is insertion sort). -/
def sortRankEntries (l : List RankEntry) : List RankEntry :=
  List.insertionSort (fun a b => b.score ≤ a.score) l

/-- `final_rank_with_llm` from `main/jobpost_candidate_ranker.py`. -/
def final_rank_with_llm (encode : List Char → Nat)
    (llmCall : LLMCand → Option (List Char))
    (parseScore : List Char → Option (Int × List (List Char)))
    (jobDesc : List Char) (cands : List LLMCand) :
    List RankEntry × TokenUsage × ℚ :=
  let r := rankLoop encode llmCall parseScore jobDesc cands
  (sortRankEntries r.1, ⟨r.2.1, r.2.2.1, r.2.1 + r.2.2.1⟩, r.2.2.2)

/-- Candidate record as seen by the heuristic pre-rank of `ranking_algo`:
`resumeSkills` stands for `extract_resume_skills(c.resume_data)` (a set of
lowercased, stripped names) and `resumeBlob` for
`json.dumps(c.resume_data).lower()`; both are precomputed here because the
claims about the selection step do not depend on the JSON traversal. -/
structure CandRecord where
  id : Nat
  resumeSkills : List (List Char)
  resumeBlob : List Char
  work_mode_preferences : List (List Char)
  employment_type_preferences : List (List Char)
deriving DecidableEq

/-- Heuristic skill overlap: the number of distinct expanded skills present
in the candidate's skill set, or — when that is zero — the number of expanded
skill strings (duplicates counted) occurring as substrings of the serialized
resume. -/
def heuristicOverlap (expanded : List (List Char)) (c : CandRecord) : Nat :=
  let inter := (expanded.dedup.filter (fun s => c.resumeSkills.contains s)).length
  if inter = 0 then (expanded.filter (fun s => containsSub s c.resumeBlob)).length
  else inter

/-- Bonus for a matching work-mode preference. -/
def workBonus (workplaceText : List Char) (c : CandRecord) : Nat :=
  if (c.work_mode_preferences.map pyLower).contains (pyLower workplaceText) then 1
  else 0

/-- Bonus for a matching employment-type preference. -/
def typeBonus (jobTypeText : List Char) (c : CandRecord) : Nat :=
  if (c.employment_type_preferences.map pyLower).contains (pyLower jobTypeText) then 1
  else 0

/-- The composite heuristic score `overlap * 3 + work_bonus + type_bonus`. -/
def heuristicScore (expanded : List (List Char)) (workplaceText jobTypeText : List Char)
    (c : CandRecord) : Nat :=
  heuristicOverlap expanded c * 3 + workBonus workplaceText c + typeBonus jobTypeText c

/-- The scored list built by the pre-rank loop: candidates with zero overlap
are skipped, the rest are paired with their score in input order. -/
def scoredList (expanded : List (List Char)) (workplaceText jobTypeText : List Char)
    (eligible : List CandRecord) : List (Nat × CandRecord) :=
  (eligible.filter (fun c => heuristicOverlap expanded c ≠ 0)).map
    (fun c => (heuristicScore expanded workplaceText jobTypeText c, c))

/-- `scored.sort(key=lambda x: x[0], reverse=True)`: stable descending sort
by score. -/
def sortScoredDesc (l : List (Nat × CandRecord)) : List (Nat × CandRecord) :=
  List.insertionSort (fun a b => b.1 ≤ a.1) l

/-- The selection step of `ranking_algo`: top five of the sorted scored list,
backfilled from the eligible pool (excluding already selected ids, in pool
order) up to three when fewer than three survive. -/
def ranking_selection (expanded : List (List Char))
    (workplaceText jobTypeText : List Char) (eligible : List CandRecord) :
    List CandRecord :=
  let scored := scoredList expanded workplaceText jobTypeText eligible
  let selected := ((sortScoredDesc scored).take 5).map Prod.snd
  if selected.length < 3 then
    selected ++
      (eligible.filter
        (fun c => !((selected.map (fun x => x.id)).contains c.id))).take
        (3 - selected.length)
  else selected

/-- Join page texts with newlines (`"\n".join(pages)`). -/
def joinWithNewlines : List (List Char) → List Char
  | [] => []
  | [p] => p
  | p :: ps => p ++ '\n' :: joinWithNewlines ps

/-- `parse_pdf_text` from `candidates/resume_parser.py`, with the text layer
of each page (what `get_text_range()` returns) given as input: empty page
texts are skipped, the rest joined with newlines, and the result stripped. -/
def parse_pdf_text (pages : List (List Char)) : List Char :=
  pyStrip (joinWithNewlines (pages.filter (fun p => !p.isEmpty)))

/-- The PDF branch of `_extract_text_by_type`: fall back to OCR exactly when
the stripped embedded text has fewer than 50 characters.  The Boolean records
whether `parse_pdf_ocr` was invoked; `ocrText` is whatever it would return
(possibly empty when the OCR engine is unavailable). -/
def extractPdfText (pages : List (List Char)) (ocrText : List Char) :
    List Char × Bool :=
  let text := parse_pdf_text pages
  if (pyStrip text).length < 50 then (ocrText, true) else (text, false)

/-- `SKILL_LIST` from `candidates/resume_parser.py`. -/
def SKILL_LIST : List (List Char) :=
  [ r"python".toList, r"java".toList, r"c++".toList, r"c".toList, r"sql".toList
  , r"nosql".toList, r"mysql".toList, r"postgresql".toList, r"mongodb".toList
  , r"aws".toList, r"azure".toList, r"gcp".toList, r"docker".toList
  , r"kubernetes".toList, r"pytorch".toList, r"tensorflow".toList
  , r"scikit-learn".toList, r"react".toList, r"django".toList, r"flask".toList
  , r"fastapi".toList, r"git".toList, r"linux".toList, r"javascript".toList
  , r"html".toList, r"css".toList, r"nlp".toList, r"machine learning".toList
  , r"deep learning".toList, r"computer vision".toList, r"tableau".toList
  , r"power bi".toList ]

/-- The vocabulary entry `c++`. -/
def cppTok : List Char := r"c++".toList

/-- Case-sensitive whole-word scanner (the skill text is lowercased before
matching and the vocabulary is lowercase, so no case folding is needed):
`\b<lit>\b` for a literal that starts and ends with word characters. -/
def wordMatchPlain (lit : List Char) (prevW : Bool) : List Char → Bool
  | [] => false
  | c :: t =>
    (!prevW && lit.isPrefixOf (c :: t) && afterBoundary lit (c :: t))
      || wordMatchPlain lit (isWordChar c) t

/-- What the pattern `rf"\b{s}\b"` compiles to for `s = "c++"` on Python
3.11+: `c++` is a possessive quantifier, so the pattern matches any maximal
run of one or more `c` characters preceded by a word boundary and followed
by one (no backtracking into the run). -/
def cppMatchAux (prevW : Bool) : List Char → Bool
  | [] => false
  | c :: t =>
    (!prevW && c = 'c' &&
      (match t.dropWhile (fun d => d = 'c') with
       | [] => true
       | d :: _ => !isWordChar d))
      || cppMatchAux (isWordChar c) t

/-- `re.search(r"\bc++\b", tl)` under possessive-quantifier semantics. -/
def cppMatch (s : List Char) : Bool :=
  cppMatchAux false s

/-- `re.search(rf"\b{s}\b", tl)` for a vocabulary entry `s`: every entry
except `c++` is a regex literal of word characters. -/
def skillRegexMatch (s tl : List Char) : Bool :=
  if s = cppTok then cppMatch tl else wordMatchPlain s false tl

/-- Python string comparison (lexicographic by code point), as used by
`sorted`. -/
def lexLe : List Char → List Char → Bool
  | [], _ => true
  | _ :: _, [] => false
  | x :: xs, y :: ys =>
    if x.toNat < y.toNat then true
    else if y.toNat < x.toNat then false
    else lexLe xs ys

/-- `extract_skills` from `candidates/resume_parser.py`: the vocabulary
entries whose regex matches the lowercased text, deduplicated (the source
builds a set; `SKILL_LIST` has no duplicates) and sorted. -/
def extract_skills (text : List Char) : List (List Char) :=
  List.insertionSort (fun a b => lexLe a b = true)
    (SKILL_LIST.filter (fun s => skillRegexMatch s (pyLower text)))

/-- Counterexample input for C8. -/
def cccInput : List Char := r"ccc".toList

/-- Extraction status of a `CandidateProfile` (`PARSING_STATUS` choices). -/
inductive ParseStatus
  | not_parsed
  | parsing
  | parsed
  | failed
deriving DecidableEq

/-- The fields of `CandidateProfile` relevant to the C9 invariant; the
extracted field set is abstracted to an `Option Nat` payload (only nullness
matters) and `has_resume_file` models the truthiness of `resume_file`. -/
structure CandidateDoc where
  parsing_status : ParseStatus
  resume_data : Option Nat
  has_resume_file : Bool
deriving DecidableEq

/-- Outcome of one `parse_resume` run inside the task. -/
inductive ParseOutcome
  | parseOk (d : Nat)
  | parseFail

/-- The sequence of persisted states produced by one run of
`parse_resume_task` (`candidates/tasks.py`): no file → mark failed; else mark
parsing, then on success store the data together with status `parsed`, on any
exception set status `failed` while leaving `resume_data` untouched. -/
def parseTaskTrace (s : CandidateDoc) (o : ParseOutcome) : List CandidateDoc :=
  if !s.has_resume_file then [{ s with parsing_status := .failed }]
  else
    { s with parsing_status := .parsing } ::
      (match o with
       | .parseOk d => [{ s with parsing_status := .parsed, resume_data := some d }]
       | .parseFail => [{ s with parsing_status := .failed }])

/-- Dispatch guard of the `parse-resume` view (`candidates/views.py`):
requires a resume file, and refuses when already parsed with data or when a
parse is in progress. -/
def parseDispatchGuard (s : CandidateDoc) : Prop :=
  ¬(s.parsing_status = .parsed ∧ s.resume_data ≠ none) ∧
    s.parsing_status ≠ .parsing ∧ s.has_resume_file = true

/-- Candidate states observable through the parse task and the cleanup
sweep, starting from the model defaults (`parsing_status="not_parsed"`,
`resume_data` null). -/
inductive CandReach : CandidateDoc → Prop
  | init (hasFile : Bool) : CandReach ⟨.not_parsed, none, hasFile⟩
  | task (s x : CandidateDoc) (o : ParseOutcome) : CandReach s →
      parseDispatchGuard s → x ∈ parseTaskTrace s o → CandReach x
  | sweep (s : CandidateDoc) : CandReach s → s.parsing_status = .parsing →
      CandReach { s with parsing_status := .not_parsed }

/-- Ranking status of a `JobPost` (`RANKING_STATUS` choices). -/
inductive RankStatus
  | not_ranked
  | ranking
  | ranked
  | failed
deriving DecidableEq

/-- The fields of `JobPost` relevant to the C9 invariant. -/
structure JobPostRec where
  ranking_status : RankStatus
  candidate_ranking_data : Option Nat
deriving DecidableEq

/-- Outcome of one `rank_candidates_task` run: the ranking algorithm either
raises, or persists its result (`ranking_algo` saves data and status
`ranked` itself), after which the remaining task statements (the second
save, the cache invalidation) may still raise (`postOk = false`), sending the
task into its `except` branch which overwrites the status with `failed`
without clearing the stored data. -/
inductive RankOutcome
  | algoFail
  | algoOk (d : Nat) (postOk : Bool)

/-- The sequence of persisted states produced by one run of
`rank_candidates_task` (`main/tasks.py`). -/
def rankTaskTrace (s : JobPostRec) : RankOutcome → List JobPostRec
  | .algoFail => [{ s with ranking_status := .ranking }, { s with ranking_status := .failed }]
  | .algoOk d postOk =>
    { s with ranking_status := .ranking } :: ⟨.ranked, some d⟩ ::
      (if postOk then [] else [⟨.failed, some d⟩])

/-- Dispatch guard of the ranking view (`main/views.py`): refuses when
already ranked with data or when ranking is in progress. -/
def rankDispatchGuard (s : JobPostRec) : Prop :=
  ¬(s.ranking_status = .ranked ∧ s.candidate_ranking_data ≠ none) ∧
    s.ranking_status ≠ .ranking

/-- Job-post states observable through the ranking task and the cleanup
sweep, starting from the model defaults. -/
inductive JobReach : JobPostRec → Prop
  | init : JobReach ⟨.not_ranked, none⟩
  | task (s x : JobPostRec) (o : RankOutcome) : JobReach s →
      rankDispatchGuard s → x ∈ rankTaskTrace s o → JobReach x
  | sweep (s : JobPostRec) : JobReach s → s.ranking_status = .ranking →
      JobReach { s with ranking_status := .not_ranked }

/-- The candidate half of the C9 invariant. -/
def candInvariant (s : CandidateDoc) : Prop :=
  (s.resume_data ≠ none) ↔ s.parsing_status = .parsed

/-- The job half of the C9 invariant. -/
def jobInvariant (s : JobPostRec) : Prop :=
  (s.candidate_ranking_data ≠ none) ↔ s.ranking_status = .ranked

/-- The descending score order of `sortScoredDesc` is total. -/
instance : IsTotal (Nat × CandRecord) (fun a b => b.1 ≤ a.1) :=
  ⟨fun a b => Nat.le_total b.1 a.1⟩

/-- The descending score order of `sortScoredDesc` is transitive. -/
instance : IsTrans (Nat × CandRecord) (fun a b => b.1 ≤ a.1) :=
  ⟨fun _ _ _ h1 h2 => Nat.le_trans h2 h1⟩

/-- The lexicographic order used by `sorted` is total. -/
instance : IsTotal (List Char) (fun a b => lexLe a b = true) := by
  constructor
  intro a
  induction a with
  | nil => intro b; left; rfl
  | cons x xs ih =>
    intro b
    cases b with
    | nil => right; rfl
    | cons y ys =>
      rcases Nat.lt_trichotomy x.toNat y.toNat with h | h | h
      · left
        show (if x.toNat < y.toNat then true
          else if y.toNat < x.toNat then false else lexLe xs ys) = true
        rw [if_pos h]
      · rcases ih ys with h2 | h2
        · left
          show (if x.toNat < y.toNat then true
            else if y.toNat < x.toNat then false else lexLe xs ys) = true
          rw [if_neg (by omega), if_neg (by omega)]
          exact h2
        · right
          show (if y.toNat < x.toNat then true
            else if x.toNat < y.toNat then false else lexLe ys xs) = true
          rw [if_neg (by omega), if_neg (by omega)]
          exact h2
      · right
        show (if y.toNat < x.toNat then true
          else if x.toNat < y.toNat then false else lexLe ys xs) = true
        rw [if_pos h]

/-- The lexicographic order used by `sorted` is transitive. -/
instance : IsTrans (List Char) (fun a b => lexLe a b = true) := by
  constructor
  intro a
  induction a with
  | nil => intro b c _ _; rfl
  | cons x xs ih =>
    intro b c hab hbc
    cases b with
    | nil => exact absurd hab (by simp [lexLe])
    | cons y ys =>
      cases c with
      | nil => exact absurd hbc (by simp [lexLe])
      | cons z zs =>
        have hab2 : (if x.toNat < y.toNat then true
          else if y.toNat < x.toNat then false else lexLe xs ys) = true := hab
        have hbc2 : (if y.toNat < z.toNat then true
          else if z.toNat < y.toNat then false else lexLe ys zs) = true := hbc
        show (if x.toNat < z.toNat then true
          else if z.toNat < x.toNat then false else lexLe xs zs) = true
        by_cases hxy : x.toNat < y.toNat
        · by_cases hyz : y.toNat < z.toNat
          · rw [if_pos (by omega)]
          · rw [if_neg hyz] at hbc2
            by_cases hzy : z.toNat < y.toNat
            · rw [if_pos hzy] at hbc2
              exact absurd hbc2 (by simp)
            · rw [if_pos (by omega)]
        · rw [if_neg hxy] at hab2
          by_cases hyx : y.toNat < x.toNat
          · rw [if_pos hyx] at hab2
            exact absurd hab2 (by simp)
          · rw [if_neg hyx] at hab2
            by_cases hyz : y.toNat < z.toNat
            · rw [if_pos (by omega)]
            · rw [if_neg hyz] at hbc2
              by_cases hzy : z.toNat < y.toNat
              · rw [if_pos hzy] at hbc2
                exact absurd hbc2 (by simp)
              · rw [if_neg hzy] at hbc2
                rw [if_neg (by omega), if_neg (by omega)]
                exact ih ys zs hab2 hbc2

/-- Token-count stub for the C5 witness (characters as tokens). -/
def c5Encode : List Char → Nat := fun s => s.length

/-- LLM stub for the C5 witness: the call for candidate 1 raises, every
other call returns a fixed content string. -/
def c5LlmCall : LLMCand → Option (List Char) :=
  fun c => if c.id = 1 then none else some (r"fifty".toList)

/-- Parse stub for the C5 witness: every content parses to score 50. -/
def c5Parse : List Char → Option (Int × List (List Char)) :=
  fun _ => some (50, [r"good fit".toList])

/-- Candidate batch for the C5 witness. -/
def c5Cands : List LLMCand :=
  [⟨1, r"a".toList, r"ra".toList⟩, ⟨2, r"b".toList, r"rb".toList⟩]

/-- Job description for the C5 witness. -/
def c5Job : List Char := r"desc".toList

/-- Expanded skill list for the C6 witness. -/
def c6Exp : List (List Char) := [r"python".toList]

/-- Workplace text for the C6 witness. -/
def c6W : List Char := r"remote".toList

/-- Job-type text for the C6 witness. -/
def c6T : List Char := r"full_time".toList

/-- Eligible candidate with one matching skill, for the C6 witness. -/
def c6Cand (i : Nat) : CandRecord := ⟨i, [r"python".toList], [], [], []⟩

/-- Eligible pool of four scored candidates, for the C6 witness. -/
def c6Eligible : List CandRecord := [c6Cand 1, c6Cand 2, c6Cand 3, c6Cand 4]

/-- Eligible pool with a single zero-overlap candidate, for the C6 witness
backfill branch. -/
def c6SmallElig : List CandRecord := [⟨9, [], [], [], []⟩]

/-- Single short page for the C7 witness. -/
def c7ShortPages : List (List Char) := [r"short text".toList]

/-- Single long page for the C7 witness. -/
def c7LongPages : List (List Char) :=
  [r"This embedded text layer is comfortably longer than fifty characters in total.".toList]

/-- OCR stub output for the C7 witness. -/
def c7Ocr : List Char := r"ocr output".toList

/-- Input text for the C8 witness. -/
def c8WitnessText : List Char := r"Knows Python and SQL".toList

/-- Sanitized output of `noLimitInput`. -/
def noLimitOut : List Char :=
  r"select slug from candidates_candidateprofile LIMIT 10 WHERE is_available = TRUE".toList

/-- Sanitized output of `bigLimitInput`. -/
def bigLimitOut : List Char :=
  r"select slug from candidates_candidateprofile LIMIT 20 WHERE is_available = TRUE".toList

/-- C1, counterexample: the statement `c1BypassInput` references, via the
whitespace token following `JOIN`, the table `evil`, which is not
allow-listed, yet `validate_and_sanitize_sql` accepts the statement: the
extractor splits on the literal `" join "` and a newline defeats it. -/
theorem agent_c1_counterexample :
    (specReferencedTables c1BypassInput).contains evilTok = true ∧
    ALLOWED_TABLES.contains evilTok = false ∧
    (validate_and_sanitize_sql c1BypassInput).isOk = true :=
  ⟨by decide, by decide, by decide⟩

/-- C1, amended: whenever `_extract_referenced_tables` succeeds and yields a
token outside `ALLOWED_TABLES`, `validate_and_sanitize_sql` raises the
rejected-query error (`ValueError`); tables referenced after `FROM`/`JOIN`
through whitespace other than a single space are not detected and may be
accepted. -/
theorem agent_c1_tables_amended (sql : List Char) (ts : List (List Char))
    (t : List Char) (hex : _extract_referenced_tables sql = .ok ts)
    (hmem : t ∈ ts) (hbad : ALLOWED_TABLES.contains t = false) :
    validate_and_sanitize_sql sql = .error .valueError := by
  have hall : (ts.all fun x => ALLOWED_TABLES.contains x) = false := by
    cases hA : ts.all fun x => ALLOWED_TABLES.contains x
    · rfl
    · have := List.all_eq_true.mp hA t hmem
      rw [hbad] at this
      exact absurd this (by decide)
  unfold validate_and_sanitize_sql
  split
  · rfl
  split
  · rfl
  split
  · rfl
  rw [hex]
  split
  · rename_i e heq
    simp at heq
  · rename_i rest hrest
    cases hrest
    split
    · rfl
    · rename_i hcond
      simp at hcond hbad
      exact absurd (hcond t hmem) hbad

/-- Witness for the amended C1 at the input `select slug from evil_table`. -/
theorem agent_c1_tables_amended_witness :
    validate_and_sanitize_sql c1WitnessInput = .error .valueError :=
  agent_c1_tables_amended c1WitnessInput [evilTableTok] evilTableTok rfl
    (by decide) (by decide)

/-- C2, counterexample: the statement `c2BypassInput` contains the forbidden
full-text-search operator `@@` as a whole word (spaces on both sides), yet
`validate_and_sanitize_sql` accepts it, because `\b@@\b` only matches when
word characters directly abut the operator. -/
theorem agent_c2_counterexample :
    wholeWordCI atAtTok c2BypassInput = true ∧
    (validate_and_sanitize_sql c2BypassInput).isOk = true :=
  ⟨by decide, by decide⟩

/-- C2, amended: any SQL string containing one of the word-character
forbidden keywords (the DDL/DML keywords and the `to_tsquery` family) as a
case-insensitive whole word, or containing `@@` directly surrounded by word
characters, is rejected with the guardrail `ValueError` before execution;
`@@` separated from its operands by spaces is not caught. -/
theorem agent_c2_forbidden_amended (sql : List Char)
    (h : (∃ kw ∈ FORBIDDEN_WORD_PATTERNS, wholeWordCI kw sql = true) ∨
      atAtMatch sql = true) :
    validate_and_sanitize_sql sql = .error .valueError := by
  have hf : matchesForbidden sql = true := by
    unfold matchesForbidden
    rcases h with ⟨kw, hkw, hw⟩ | ha
    · have hA : FORBIDDEN_WORD_PATTERNS.any (fun kw => wholeWordCI kw sql) = true :=
        List.any_eq_true.mpr ⟨kw, hkw, hw⟩
      simp [hA]
    · simp [ha]
  unfold validate_and_sanitize_sql
  split
  · rfl
  split
  · rfl
  simp [hf]

/-- Witness for the amended C2 at the input
`drop table candidates_candidateprofile`. -/
theorem agent_c2_forbidden_amended_witness :
    validate_and_sanitize_sql c2WitnessInput = .error .valueError :=
  agent_c2_forbidden_amended c2WitnessInput (Or.inl ⟨dropTok, by decide, by decide⟩)

/-- C10: on an input that contains the substring `limit` without a numeric
`LIMIT` clause, `validate_and_sanitize_sql` raises `AttributeError`
(`re.search(...).group(1)` on `None` inside `_enforce_limit`), not the
guardrail `ValueError`, contradicting the intended contract that rejections
surface as the rejected-query error. -/
theorem agent_c10_limit_substring_crash :
    containsSub limitKw (pyLower c10FailingInput) = true ∧
    findLimitNum c10FailingInput = none ∧
    validate_and_sanitize_sql c10FailingInput = .error .attributeError :=
  ⟨by decide, rfl, rfl⟩

lemma pySpace_cases {c : Char} (h : isPySpace c = true) :
    c = ' ' ∨ c = '\t' ∨ c = '\n' ∨ c = '\r' ∨ c = '\x0B' ∨ c = '\x0C' := by
  by_contra hc
  push_neg at hc
  obtain ⟨h1, h2, h3, h4, h5, h6⟩ := hc
  simp [isPySpace, h1, h2, h3, h4, h5, h6] at h

lemma pySpace_toLower {c : Char} (h : isPySpace c = true) : c.toLower = c := by
  rcases pySpace_cases h with e | e | e | e | e | e <;> subst e <;> rfl

lemma space_not_word {c : Char} (h : isPySpace c = true) : isWordChar c = false := by
  rcases pySpace_cases h with e | e | e | e | e | e <;> subst e <;> rfl

lemma nonspace_of_toLower {c k : Char} (hk : isPySpace k = false)
    (h : c.toLower = k) : isPySpace c = false := by
  cases hsp : isPySpace c
  · rfl
  · rw [pySpace_toLower hsp] at h
    subst h
    rw [hsp] at hk
    exact absurd hk (by simp)

lemma digit_not_space {c : Char} (h : c.isDigit = true) : isPySpace c = false := by
  cases hsp : isPySpace c
  · rfl
  · exfalso
    rcases pySpace_cases hsp with e | e | e | e | e | e <;> subst e <;>
      exact absurd h (by decide)

lemma prefix_contains {p s : List Char} (h : p.isPrefixOf s = true) :
    containsSub p s = true := by
  cases s with
  | nil =>
    cases p with
    | nil => rfl
    | cons a p' => simp [List.isPrefixOf] at h
  | cons c t => simp [containsSub, h]

lemma contains_cons {p : List Char} (c : Char) {t : List Char}
    (h : containsSub p t = true) : containsSub p (c :: t) = true := by
  simp [containsSub, h]

lemma contains_append_left {p t : List Char} (u : List Char)
    (h : containsSub p t = true) : containsSub p (u ++ t) = true := by
  induction u with
  | nil => simpa using h
  | cons c u' ih => exact contains_cons c ih

lemma contains_nil_false {p : List Char} (hne : p ≠ []) :
    containsSub p [] = false := by
  cases p with
  | nil => exact absurd rfl hne
  | cons a p' => rfl

lemma contains_cons_elim {p : List Char} {c : Char} {t : List Char}
    (h : containsSub p (c :: t) = true) :
    p.isPrefixOf (c :: t) = true ∨ containsSub p t = true := by
  cases hp : p.isPrefixOf (c :: t) with
  | false =>
    right
    have h' : (p.isPrefixOf (c :: t) || containsSub p t) = true := h
    rw [hp] at h'
    simpa using h'
  | true => exact Or.inl rfl

lemma prefix_space_head_false {p : List Char} (hsp : ∀ x ∈ p, isPySpace x = false)
    {c : Char} (hc : isPySpace c = true) (l : List Char) (hne : p ≠ []) :
    p.isPrefixOf (c.toLower :: l) = false := by
  cases p with
  | nil => exact absurd rfl hne
  | cons a p' =>
    have hane : a ≠ c.toLower := by
      rw [pySpace_toLower hc]
      intro he
      have ha := hsp a (by simp)
      rw [he, hc] at ha
      exact absurd ha (by decide)
    simp [List.isPrefixOf, hane]

lemma dropTrailing_eq_nil {q : Char → Bool} :
    ∀ {t : List Char}, dropTrailing q t = [] → ∀ x ∈ t, q x = true := by
  intro t
  induction t with
  | nil => intro _ x hx; exact absurd hx (by simp)
  | cons c u ih =>
    intro h x hx
    cases hr : dropTrailing q u with
    | nil =>
      simp only [dropTrailing, hr] at h
      by_cases hq : q c = true
      · rcases List.mem_cons.mp hx with he | hu
        · subst he; exact hq
        · exact ih hr x hu
      · simp [hq] at h
    | cons a r' =>
      simp only [dropTrailing, hr] at h
      exact absurd h (by simp)

lemma contains_lower_allSpace {p : List Char} (hne : p ≠ [])
    (hsp : ∀ c ∈ p, isPySpace c = false) :
    ∀ {t : List Char}, (∀ x ∈ t, isPySpace x = true) →
      containsSub p (pyLower t) = false := by
  intro t
  induction t with
  | nil => intro _; exact contains_nil_false hne
  | cons d u ih =>
    intro hall
    have hd := hall d (by simp)
    have h1 := prefix_space_head_false hsp hd (pyLower u) hne
    have h2 := ih (fun x hx => hall x (by simp [hx]))
    show (p.isPrefixOf (d.toLower :: pyLower u) || containsSub p (pyLower u)) = false
    rw [h1, h2]
    rfl

lemma prefix_lower_collapse : ∀ (p s : List Char),
    (∀ x ∈ p, isPySpace x = false) → p.isPrefixOf (pyLower s) = true →
    p.isPrefixOf (pyLower (collapseWs false s)) = true := by
  intro p
  induction p with
  | nil => intro s _ _; simp [List.isPrefixOf]
  | cons a p' ih =>
    intro s hsp h
    cases s with
    | nil => simp [List.isPrefixOf] at h
    | cons c t =>
      have hac : a = c.toLower ∧ p'.isPrefixOf (pyLower t) = true := by
        simpa [List.isPrefixOf] using h
      have hcs : isPySpace c = false := nonspace_of_toLower (hsp a (by simp)) hac.1.symm
      have hcol : collapseWs false (c :: t) = c :: collapseWs false t := by
        simp [collapseWs, hcs]
      rw [hcol]
      show ((a == c.toLower) && p'.isPrefixOf (pyLower (collapseWs false t))) = true
      have h1 : (a == c.toLower) = true := by simp [hac.1]
      rw [h1, Bool.true_and]
      exact ih t (fun x hx => hsp x (by simp [hx])) hac.2

lemma contains_lower_collapse {p : List Char} (hne : p ≠ [])
    (hsp : ∀ x ∈ p, isPySpace x = false) :
    ∀ (s : List Char) (b : Bool), containsSub p (pyLower s) = true →
      containsSub p (pyLower (collapseWs b s)) = true := by
  intro s
  induction s with
  | nil => intro b h; exact h
  | cons c t ih =>
    intro b h
    by_cases hc : isPySpace c = true
    · have hrec : containsSub p (pyLower t) = true := by
        rcases contains_cons_elim h with hpre | hrec
        · have hpre2 : p.isPrefixOf (c.toLower :: pyLower t) = true := hpre
          rw [prefix_space_head_false hsp hc (pyLower t) hne] at hpre2
          exact absurd hpre2 (by decide)
        · exact hrec
      have htail := ih true hrec
      cases b with
      | true => simpa [collapseWs, hc] using htail
      | false =>
        have : containsSub p ((' ' : Char).toLower :: pyLower (collapseWs true t)) = true :=
          contains_cons _ htail
        simpa [collapseWs, hc] using this
    · have hc' : isPySpace c = false := by revert hc; cases isPySpace c <;> simp
      have hcol : collapseWs b (c :: t) = c :: collapseWs false t := by
        simp [collapseWs, hc']
      rw [hcol]
      rcases contains_cons_elim h with hpre | hrec
      · have := prefix_lower_collapse p (c :: t) hsp hpre
        rw [show collapseWs false (c :: t) = c :: collapseWs false t by
          simp [collapseWs, hc']] at this
        exact prefix_contains this
      · exact contains_cons _ (ih false hrec)

lemma prefix_lower_dropTrailing : ∀ (p s : List Char),
    (∀ x ∈ p, isPySpace x = false) → p.isPrefixOf (pyLower s) = true →
    p.isPrefixOf (pyLower (dropTrailing isPySpace s)) = true := by
  intro p
  induction p with
  | nil => intro s _ _; simp [List.isPrefixOf]
  | cons a p' ih =>
    intro s hsp h
    cases s with
    | nil => simp [List.isPrefixOf] at h
    | cons c t =>
      have hac : a = c.toLower ∧ p'.isPrefixOf (pyLower t) = true := by
        simpa [List.isPrefixOf] using h
      have hcs : isPySpace c = false := nonspace_of_toLower (hsp a (by simp)) hac.1.symm
      cases hr : dropTrailing isPySpace t with
      | nil =>
        have hallt := dropTrailing_eq_nil hr
        have hp' : p' = [] := by
          cases p' with
          | nil => rfl
          | cons a2 p2 =>
            exfalso
            cases t with
            | nil => exact absurd hac.2 (by simp [List.isPrefixOf])
            | cons d u =>
              have hd := hallt d (by simp)
              have h2 : a2 = d.toLower ∧ p2.isPrefixOf (pyLower u) = true := by
                simpa [List.isPrefixOf] using hac.2
              have ha2 : isPySpace a2 = false := hsp a2 (by simp)
              rw [h2.1, pySpace_toLower hd] at ha2
              rw [ha2] at hd
              exact absurd hd (by decide)
        subst hp'
        have hDT : dropTrailing isPySpace (c :: t) = [c] := by
          simp [dropTrailing, hr, hcs]
        rw [hDT]
        simp [List.isPrefixOf, hac.1]
      | cons e r' =>
        have hDT : dropTrailing isPySpace (c :: t) = c :: e :: r' := by
          simp [dropTrailing, hr]
        rw [hDT]
        have hp2 := ih t (fun x hx => hsp x (by simp [hx])) hac.2
        rw [hr] at hp2
        show ((a == c.toLower) && p'.isPrefixOf (pyLower (e :: r'))) = true
        have h1 : (a == c.toLower) = true := by simp [hac.1]
        rw [h1, Bool.true_and]
        exact hp2

lemma contains_lower_dropTrailing {p : List Char} (hne : p ≠ [])
    (hsp : ∀ x ∈ p, isPySpace x = false) :
    ∀ (s : List Char), containsSub p (pyLower s) = true →
      containsSub p (pyLower (dropTrailing isPySpace s)) = true := by
  intro s
  induction s with
  | nil => intro h; exact h
  | cons c t ih =>
    intro h
    rcases contains_cons_elim h with hpre | hrec
    · exact prefix_contains (prefix_lower_dropTrailing p (c :: t) hsp hpre)
    · cases hr : dropTrailing isPySpace t with
      | nil =>
        have hfalse := contains_lower_allSpace hne hsp (dropTrailing_eq_nil hr)
        have hrec2 : containsSub p (pyLower t) = true := hrec
        rw [hrec2] at hfalse
        exact absurd hfalse (by decide)
      | cons e r' =>
        have hDT : dropTrailing isPySpace (c :: t) = c :: e :: r' := by
          simp [dropTrailing, hr]
        rw [hDT]
        have := ih hrec
        rw [hr] at this
        exact contains_cons _ this

lemma contains_lower_dropWhileSp {p : List Char} (hne : p ≠ [])
    (hsp : ∀ x ∈ p, isPySpace x = false) :
    ∀ (s : List Char), containsSub p (pyLower s) = true →
      containsSub p (pyLower (s.dropWhile isPySpace)) = true := by
  intro s
  induction s with
  | nil => intro h; exact h
  | cons c t ih =>
    intro h
    by_cases hc : isPySpace c = true
    · have hrec : containsSub p (pyLower t) = true := by
        rcases contains_cons_elim h with hpre | hrec
        · have hpre2 : p.isPrefixOf (c.toLower :: pyLower t) = true := hpre
          rw [prefix_space_head_false hsp hc (pyLower t) hne] at hpre2
          exact absurd hpre2 (by decide)
        · exact hrec
      simpa [List.dropWhile, hc] using ih hrec
    · have hc' : isPySpace c = false := by revert hc; cases isPySpace c <;> simp
      simpa [List.dropWhile, hc'] using h

lemma contains_lower_normalize {p : List Char} (hne : p ≠ [])
    (hsp : ∀ x ∈ p, isPySpace x = false) (s : List Char)
    (h : containsSub p (pyLower s) = true) :
    containsSub p (pyLower (pyNormalize s)) = true := by
  unfold pyNormalize pyStrip
  exact contains_lower_collapse hne hsp _ false
    (contains_lower_dropTrailing hne hsp _ (contains_lower_dropWhileSp hne hsp s h))

lemma validate_ok_decomp {sql out : List Char}
    (h : validate_and_sanitize_sql sql = .ok out) :
    ∃ sql2, _enforce_limit sql = .ok sql2 ∧
      out = pyNormalize
        (if !(containsSub isAvailLit (pyLower sql2)) then
          (if containsSub whereLit (pyLower sql2) then sql2 ++ andClause
           else sql2 ++ whereClause)
         else sql2) := by
  unfold validate_and_sanitize_sql at h
  split at h
  · exact absurd h (by simp)
  split at h
  · exact absurd h (by simp)
  split at h
  · exact absurd h (by simp)
  split at h
  · exact absurd h (by simp)
  split at h
  · exact absurd h (by simp)
  split at h
  · exact absurd h (by simp)
  split at h
  · exact absurd h (by simp)
  · rename_i sql2 heq
    refine ⟨sql2, heq, ?_⟩
    have hsq : is_sqlite = false := rfl
    simp only [hsq, Bool.false_eq_true, if_false] at h
    injection h with h2
    exact h2.symm

/-- C3: every SQL string accepted by `validate_and_sanitize_sql` comes out
referencing the availability column: the sanitized output contains
`is_available` (case-insensitively), either because the statement already
did or because an `AND`/`WHERE is_available = TRUE` clause was appended. -/
theorem agent_c3_availability_filter (sql out : List Char)
    (h : validate_and_sanitize_sql sql = .ok out) :
    containsSub isAvailLit (pyLower out) = true := by
  obtain ⟨sql2, _, hout⟩ := validate_ok_decomp h
  subst hout
  have hne : isAvailLit ≠ [] := by decide
  have hsp : ∀ x ∈ isAvailLit, isPySpace x = false := by decide
  apply contains_lower_normalize hne hsp
  by_cases hc : containsSub isAvailLit (pyLower sql2) = true
  · simp [hc]
  · have hc2 : containsSub isAvailLit (pyLower sql2) = false := by
      revert hc; cases containsSub isAvailLit (pyLower sql2) <;> simp
    rw [hc2]
    simp only [Bool.not_false, if_true]
    by_cases hw : containsSub whereLit (pyLower sql2) = true
    · rw [if_pos hw]
      rw [show pyLower (sql2 ++ andClause) = pyLower sql2 ++ pyLower andClause
        from List.map_append _ _ _]
      exact contains_append_left _ (by decide)
    · rw [if_neg hw]
      rw [show pyLower (sql2 ++ whereClause) = pyLower sql2 ++ pyLower whereClause
        from List.map_append _ _ _]
      exact contains_append_left _ (by decide)

/-- Witness for C3 at a concrete accepted input. -/
theorem agent_c3_availability_filter_witness :
    containsSub isAvailLit
      (pyLower (r"select slug from candidates_candidateprofile LIMIT 10 WHERE is_available = TRUE".toList)) = true :=
  agent_c3_availability_filter noLimitInput
    (r"select slug from candidates_candidateprofile LIMIT 10 WHERE is_available = TRUE".toList) rfl

lemma takeWhile_append_all {q : Char → Bool} {W : List Char} (Y : List Char)
    (h : ∀ x ∈ W, q x = true) : (W ++ Y).takeWhile q = W ++ Y.takeWhile q := by
  induction W with
  | nil => rfl
  | cons c w ih =>
    have hc := h c (by simp)
    simp only [List.cons_append, List.takeWhile_cons, hc, if_true]
    rw [ih (fun x hx => h x (by simp [hx]))]

lemma dropWhile_append_all {q : Char → Bool} {W : List Char} (Y : List Char)
    (h : ∀ x ∈ W, q x = true) : (W ++ Y).dropWhile q = Y.dropWhile q := by
  induction W with
  | nil => rfl
  | cons c w ih =>
    have hc := h c (by simp)
    simp only [List.cons_append, List.dropWhile_cons, hc, if_true]
    exact ih (fun x hx => h x (by simp [hx]))

lemma takeWhile_nil_of_head {q : Char → Bool} {Y : List Char}
    (h : ∀ a, Y.head? = some a → q a = false) : Y.takeWhile q = [] := by
  cases Y with
  | nil => rfl
  | cons a t =>
    have := h a rfl
    simp [List.takeWhile_cons, this]

lemma dropWhile_self_of_head {q : Char → Bool} {Y : List Char}
    (h : ∀ a, Y.head? = some a → q a = false) : Y.dropWhile q = Y := by
  cases Y with
  | nil => rfl
  | cons a t =>
    have := h a rfl
    simp [List.dropWhile_cons, this]

lemma dropWhile_head_false {q : Char → Bool} :
    ∀ {l : List Char} {a : Char} {r : List Char},
      l.dropWhile q = a :: r → q a = false := by
  intro l
  induction l with
  | nil => intro a r h; simp at h
  | cons c t ih =>
    intro a r h
    by_cases hc : q c = true
    · rw [List.dropWhile_cons, if_pos hc] at h
      exact ih h
    · have hc2 : q c = false := by revert hc; cases q c <;> simp
      rw [List.dropWhile_cons, if_neg (by simp [hc2])] at h
      cases h
      exact hc2

lemma ciPrefix_length : ∀ {k s : List Char}, ciPrefix k s = true → k.length ≤ s.length := by
  intro k
  induction k with
  | nil => intro s _; simp
  | cons a ks ih =>
    intro s h
    cases s with
    | nil => simp [ciPrefix] at h
    | cons c cs =>
      have h2 : ciPrefix ks cs = true := by
        have : ((c.toLower = a : Bool) && ciPrefix ks cs) = true := h
        exact (Bool.and_eq_true_iff.mp this).2
      simpa using ih h2

lemma ciPrefix_take : ∀ {k s : List Char}, ciPrefix k s = true →
    ciPrefix k (s.take k.length) = true := by
  intro k
  induction k with
  | nil => intro s _; rfl
  | cons a ks ih =>
    intro s h
    cases s with
    | nil => simp [ciPrefix] at h
    | cons c cs =>
      have h1 : ((c.toLower = a : Bool) && ciPrefix ks cs) = true := h
      rcases Bool.and_eq_true_iff.mp h1 with ⟨hc, hrest⟩
      show ((c.toLower = a : Bool) && ciPrefix ks (cs.take ks.length)) = true
      rw [hc, Bool.true_and]
      exact ih hrest

lemma ciPrefix_append_left : ∀ {k L : List Char} (X : List Char),
    ciPrefix k L = true → ciPrefix k (L ++ X) = true := by
  intro k
  induction k with
  | nil => intro L X _; rfl
  | cons a ks ih =>
    intro L X h
    cases L with
    | nil => simp [ciPrefix] at h
    | cons c cs =>
      have h1 : ((c.toLower = a : Bool) && ciPrefix ks cs) = true := h
      rcases Bool.and_eq_true_iff.mp h1 with ⟨hc, hrest⟩
      show ((c.toLower = a : Bool) && ciPrefix ks (cs ++ X)) = true
      rw [hc, Bool.true_and]
      exact ih X hrest

lemma ciPrefix_all_nonspace : ∀ {k L : List Char},
    (∀ x ∈ k, isPySpace x = false) → ciPrefix k L = true →
    L.length ≤ k.length → ∀ x ∈ L, isPySpace x = false := by
  intro k
  induction k with
  | nil =>
    intro L _ _ hlen x hx
    rw [List.length_nil, Nat.le_zero, List.length_eq_zero] at hlen
    subst hlen
    exact absurd hx (by simp)
  | cons a ks ih =>
    intro L hks h hlen x hx
    cases L with
    | nil => exact absurd hx (by simp)
    | cons c cs =>
      have h1 : ((c.toLower = a : Bool) && ciPrefix ks cs) = true := h
      rcases Bool.and_eq_true_iff.mp h1 with ⟨hc, hrest⟩
      have hc2 : c.toLower = a := by simpa using hc
      rcases List.mem_cons.mp hx with he | hm
      · subst he
        exact nonspace_of_toLower (hks a (by simp)) hc2
      · exact ih (fun y hy => hks y (by simp [hy])) hrest (by simpa using hlen) x hm

lemma limitMatch_decomp {s : List Char} {v : Nat} {r : List Char}
    (h : limitMatchAt s = some (v, r)) :
    ∃ L W D, s = L ++ (W ++ (D ++ r)) ∧ L.length = 5 ∧ ciPrefix limitKw L = true ∧
      W ≠ [] ∧ (∀ x ∈ W, isPySpace x = true) ∧ D ≠ [] ∧ (∀ x ∈ D, x.isDigit = true) ∧
      v = digitsToNat D ∧ (∀ a, r.head? = some a → a.isDigit = false) := by
  unfold limitMatchAt at h
  by_cases hci : ciPrefix limitKw s = true
  · rw [if_pos hci] at h
    by_cases hw : ((s.drop 5).takeWhile isPySpace).isEmpty = true
    · rw [if_pos hw] at h; exact absurd h (by simp)
    · rw [if_neg hw] at h
      by_cases hd : (((s.drop 5).dropWhile isPySpace).takeWhile Char.isDigit).isEmpty = true
      · rw [if_pos hd] at h; exact absurd h (by simp)
      · rw [if_neg hd] at h
        injection h with h2
        have hv : v = digitsToNat (((s.drop 5).dropWhile isPySpace).takeWhile Char.isDigit) :=
          congrArg Prod.fst h2.symm
        have hr : r = ((s.drop 5).dropWhile isPySpace).dropWhile Char.isDigit :=
          congrArg Prod.snd h2.symm
        refine ⟨s.take 5, (s.drop 5).takeWhile isPySpace,
          ((s.drop 5).dropWhile isPySpace).takeWhile Char.isDigit, ?_, ?_, ?_, ?_, ?_, ?_, ?_, ?_, ?_⟩
        · rw [hr]
          rw [List.takeWhile_append_dropWhile, List.takeWhile_append_dropWhile,
            List.take_append_drop]
        · have hlen := ciPrefix_length hci
          have h5 : limitKw.length = 5 := rfl
          rw [h5] at hlen
          simp [List.length_take]
          omega
        · have : (5 : Nat) = limitKw.length := rfl
          rw [this]
          exact ciPrefix_take hci
        · intro hnil; rw [hnil] at hw; exact hw rfl
        · intro x hx; exact List.mem_takeWhile_imp hx
        · intro hnil; rw [hnil] at hd; exact hd rfl
        · intro x hx; exact List.mem_takeWhile_imp hx
        · exact hv
        · intro a ha
          rw [hr] at ha
          cases hdw : ((s.drop 5).dropWhile isPySpace).dropWhile Char.isDigit with
          | nil => rw [hdw] at ha; simp at ha
          | cons b u =>
            rw [hdw] at ha
            have hb := dropWhile_head_false hdw
            simp at ha
            rw [← ha]
            exact hb
  · rw [if_neg hci] at h
    exact absurd h (by simp)

lemma limitMatch_build {L W D r : List Char}
    (hci : ciPrefix limitKw L = true) (hL5 : L.length = 5)
    (hW : W ≠ []) (hWs : ∀ x ∈ W, isPySpace x = true)
    (hD : D ≠ []) (hDd : ∀ x ∈ D, x.isDigit = true)
    (hr : ∀ a, r.head? = some a → a.isDigit = false) :
    limitMatchAt (L ++ (W ++ (D ++ r))) = some (digitsToNat D, r) := by
  have hci2 : ciPrefix limitKw (L ++ (W ++ (D ++ r))) = true := ciPrefix_append_left _ hci
  have hdrop : (L ++ (W ++ (D ++ r))).drop 5 = W ++ (D ++ r) := by
    rw [← hL5]
    exact List.drop_left _ _
  have hDheadSp : ∀ a, (D ++ r).head? = some a → isPySpace a = false := by
    intro a ha
    cases D with
    | nil => exact absurd rfl hD
    | cons d D2 =>
      simp at ha
      rw [← ha]
      exact digit_not_space (hDd d (by simp))
  have ht1 : (W ++ (D ++ r)).takeWhile isPySpace = W := by
    rw [takeWhile_append_all _ hWs, takeWhile_nil_of_head hDheadSp, List.append_nil]
  have ht2 : (W ++ (D ++ r)).dropWhile isPySpace = D ++ r := by
    rw [dropWhile_append_all _ hWs, dropWhile_self_of_head hDheadSp]
  have ht3 : (D ++ r).takeWhile Char.isDigit = D := by
    rw [takeWhile_append_all _ hDd, takeWhile_nil_of_head hr, List.append_nil]
  have ht4 : (D ++ r).dropWhile Char.isDigit = r := by
    rw [dropWhile_append_all _ hDd, dropWhile_self_of_head hr]
  unfold limitMatchAt
  rw [if_pos hci2]
  simp only [hdrop, ht1, ht2, ht3, ht4]
  rw [if_neg (by simpa using hW), if_neg (by simpa using hD)]

lemma hasLimit_here {P : Nat → Bool} {c : Char} {l : List Char} {v : Nat}
    {r : List Char} (hm : limitMatchAt (c :: l) = some (v, r)) (hP : P v = true) :
    hasLimitAux P false (c :: l) = true := by
  show ((match (if !false then limitMatchAt (c :: l) else none) with
    | some (v, _) => P v | none => false) || hasLimitAux P (isWordChar c) l) = true
  rw [show (if !false then limitMatchAt (c :: l) else none) = limitMatchAt (c :: l)
    from rfl, hm]
  simp [hP]

lemma hasLimit_cons_of_rec {P : Nat → Bool} {pw : Bool} {c : Char} {t : List Char}
    (h : hasLimitAux P (isWordChar c) t = true) : hasLimitAux P pw (c :: t) = true := by
  show (_ || hasLimitAux P (isWordChar c) t) = true
  rw [h]
  simp

lemma hasLimit_cons_elim {P : Nat → Bool} {pw : Bool} {c : Char} {t : List Char}
    (h : hasLimitAux P pw (c :: t) = true) :
    (pw = false ∧ ∃ v r, limitMatchAt (c :: t) = some (v, r) ∧ P v = true) ∨
      hasLimitAux P (isWordChar c) t = true := by
  cases hrec : hasLimitAux P (isWordChar c) t with
  | true => exact Or.inr rfl
  | false =>
    left
    have h' : ((match (if !pw then limitMatchAt (c :: t) else none) with
      | some (v, _) => P v | none => false) || hasLimitAux P (isWordChar c) t) = true := h
    rw [hrec, Bool.or_false] at h'
    cases pw with
    | true => simp at h'
    | false =>
      refine ⟨rfl, ?_⟩
      cases hm : limitMatchAt (c :: t) with
      | none =>
        rw [show (if !false then limitMatchAt (c :: t) else none) = limitMatchAt (c :: t)
          from rfl, hm] at h'
        simp at h'
      | some p =>
        obtain ⟨v, r⟩ := p
        rw [show (if !false then limitMatchAt (c :: t) else none) = limitMatchAt (c :: t)
          from rfl, hm] at h'
        exact ⟨v, r, rfl, h'⟩

lemma hasLimit_suffix {P : Nat → Bool} {T : List Char}
    (hT : ∀ pw : Bool, hasLimitAux P pw T = true) :
    ∀ (u : List Char) (pw : Bool), hasLimitAux P pw (u ++ T) = true := by
  intro u
  induction u with
  | nil => exact hT
  | cons c t ih =>
    intro pw
    exact hasLimit_cons_of_rec (ih (isWordChar c))

lemma limitMatch_space_head {c : Char} (u : List Char) (hc : isPySpace c = true) :
    limitMatchAt (c :: u) = none := by
  rcases pySpace_cases hc with e | e | e | e | e | e <;> subst e <;> rfl

lemma hasLimit_allSpace {P : Nat → Bool} : ∀ {t : List Char} {pw : Bool},
    (∀ x ∈ t, isPySpace x = true) → hasLimitAux P pw t = false := by
  intro t
  induction t with
  | nil => intro pw _; rfl
  | cons c u ih =>
    intro pw hall
    have hm := limitMatch_space_head u (hall c (by simp))
    show ((match (if !pw then limitMatchAt (c :: u) else none) with
      | some (v, _) => P v | none => false) || hasLimitAux P (isWordChar c) u) = false
    rw [hm, ih (fun x hx => hall x (by simp [hx]))]
    cases pw <;> simp

lemma hasLimit_ctx_mono {P : Nat → Bool} {s : List Char}
    (h : hasLimitAux P true s = true) : hasLimitAux P false s = true := by
  cases s with
  | nil => exact absurd h (by simp [hasLimitAux])
  | cons c t =>
    have h' : ((match (if !true then limitMatchAt (c :: t) else none) with
      | some (v, _) => P v | none => false) || hasLimitAux P (isWordChar c) t) = true := h
    rw [show (if !true then limitMatchAt (c :: t) else none) = none from rfl] at h'
    simp at h'
    exact hasLimit_cons_of_rec h'

lemma hasLimit_dropWhileSp {P : Nat → Bool} : ∀ {s : List Char} {pw : Bool},
    hasLimitAux P pw s = true → hasLimitAux P false (s.dropWhile isPySpace) = true := by
  intro s
  induction s with
  | nil => intro pw h; exact absurd h (by simp [hasLimitAux])
  | cons c t ih =>
    intro pw h
    by_cases hc : isPySpace c = true
    · have hm := limitMatch_space_head t hc
      have h' : ((match (if !pw then limitMatchAt (c :: t) else none) with
        | some (v, _) => P v | none => false) || hasLimitAux P (isWordChar c) t) = true := h
      rw [hm] at h'
      have h2 : hasLimitAux P (isWordChar c) t = true := by
        revert h'
        cases pw <;> simp
      rw [space_not_word hc] at h2
      simpa [List.dropWhile_cons, hc] using ih h2
    · have hc2 : isPySpace c = false := by revert hc; cases isPySpace c <;> simp
      rw [List.dropWhile_cons, if_neg (by simp [hc2])]
      cases pw with
      | false => exact h
      | true => exact hasLimit_ctx_mono h

lemma dropTrailing_append (q : Char → Bool) : ∀ (X Y : List Char),
    dropTrailing q (X ++ Y) =
      if dropTrailing q Y = [] then dropTrailing q X else X ++ dropTrailing q Y := by
  intro X Y
  induction X with
  | nil => cases h : dropTrailing q Y <;> simp [h, dropTrailing]
  | cons c X2 ih =>
    by_cases hY : dropTrailing q Y = []
    · rw [if_pos hY] at ih ⊢
      show dropTrailing q (c :: (X2 ++ Y)) = dropTrailing q (c :: X2)
      simp only [dropTrailing]
      rw [ih]
    · rw [if_neg hY] at ih ⊢
      show dropTrailing q (c :: (X2 ++ Y)) = (c :: X2) ++ dropTrailing q Y
      simp only [dropTrailing]
      rw [ih]
      cases hXY : X2 ++ dropTrailing q Y with
      | nil => exact absurd (List.append_eq_nil.mp hXY).2 hY
      | cons a u => rw [List.cons_append, hXY]

lemma dropTrailing_eq_self {q : Char → Bool} : ∀ {D : List Char},
    (∀ x ∈ D, q x = false) → dropTrailing q D = D := by
  intro D
  induction D with
  | nil => intro _; rfl
  | cons c u ih =>
    intro h
    have hu := ih (fun x hx => h x (by simp [hx]))
    simp only [dropTrailing, hu]
    cases u with
    | nil => simp [h c (by simp)]
    | cons a w => rfl

lemma dropTrailing_head {q : Char → Bool} : ∀ {Y : List Char} {a : Char} {r : List Char},
    dropTrailing q Y = a :: r → Y.head? = some a := by
  intro Y
  induction Y with
  | nil => intro a r h; simp [dropTrailing] at h
  | cons c u ih =>
    intro a r h
    cases hr : dropTrailing q u with
    | nil =>
      simp only [dropTrailing, hr] at h
      by_cases hq : q c = true
      · rw [if_pos hq] at h
        exact absurd h (by simp)
      · rw [if_neg hq] at h
        cases h
        rfl
    | cons b u2 =>
      simp only [dropTrailing, hr] at h
      cases h
      rfl

lemma hasLimit_dropTrailing {P : Nat → Bool} : ∀ {s : List Char} {pw : Bool},
    hasLimitAux P pw s = true → hasLimitAux P pw (dropTrailing isPySpace s) = true := by
  intro s
  induction s with
  | nil => intro pw h; exact absurd h (by simp [hasLimitAux])
  | cons c t ih =>
    intro pw h
    rcases hasLimit_cons_elim h with ⟨hpw, v, r, hm, hP⟩ | hrec
    · subst hpw
      obtain ⟨L, W, D, hs, hL5, hciL, hW, hWs, hD, hDd, hv, hrh⟩ := limitMatch_decomp hm
      rw [hs]
      rw [show L ++ (W ++ (D ++ r)) = (L ++ (W ++ D)) ++ r by simp [List.append_assoc]]
      rw [dropTrailing_append]
      have hDD : dropTrailing isPySpace D = D :=
        dropTrailing_eq_self (fun x hx => digit_not_space (hDd x hx))
      by_cases hrnil : dropTrailing isPySpace r = []
      · rw [if_pos hrnil]
        rw [show L ++ (W ++ D) = (L ++ W) ++ D by simp [List.append_assoc]]
        rw [dropTrailing_append, hDD, if_neg (by simpa using hD)]
        rw [show (L ++ W) ++ D = L ++ (W ++ (D ++ ([] : List Char))) by
          simp [List.append_assoc]]
        cases L with
        | nil => simp at hL5
        | cons l0 L2 =>
          have hb := @limitMatch_build _ _ _ ([] : List Char)
            hciL hL5 hW hWs hD hDd (by intro a ha; simp at ha)
          rw [← hv] at hb
          exact hasLimit_here hb hP
      · rw [if_neg hrnil]
        obtain ⟨a, R2, hR⟩ : ∃ a R2, dropTrailing isPySpace r = a :: R2 := by
          cases hx : dropTrailing isPySpace r with
          | nil => exact absurd hx hrnil
          | cons a R2 => exact ⟨a, R2, rfl⟩
        have hhead : r.head? = some a := dropTrailing_head hR
        have hr2 : ∀ b, (dropTrailing isPySpace r).head? = some b → b.isDigit = false := by
          intro b hb
          rw [hR] at hb
          simp at hb
          rw [← hb]
          exact hrh a hhead
        rw [show (L ++ (W ++ D)) ++ dropTrailing isPySpace r =
          L ++ (W ++ (D ++ dropTrailing isPySpace r)) by simp [List.append_assoc]]
        cases L with
        | nil => simp at hL5
        | cons l0 L2 =>
          have hb := limitMatch_build hciL hL5 hW hWs hD hDd hr2
          rw [← hv] at hb
          exact hasLimit_here hb hP
    · cases hr : dropTrailing isPySpace t with
      | nil =>
        have hall := @hasLimit_allSpace P _ (isWordChar c)
          (dropTrailing_eq_nil hr)
        rw [hrec] at hall
        exact absurd hall (by decide)
      | cons e r2 =>
        have hDT : dropTrailing isPySpace (c :: t) = c :: e :: r2 := by
          simp [dropTrailing, hr]
        rw [hDT]
        have h2 := ih hrec
        rw [hr] at h2
        exact hasLimit_cons_of_rec h2

lemma collapse_nonspace_head : ∀ {X : List Char} (b : Bool) (Y : List Char),
    X ≠ [] → (∀ x ∈ X, isPySpace x = false) →
    collapseWs b (X ++ Y) = X ++ collapseWs false Y := by
  intro X
  induction X with
  | nil => intro b Y h _; exact absurd rfl h
  | cons c X2 ih =>
    intro b Y _ hns
    have hc := hns c (by simp)
    show collapseWs b (c :: (X2 ++ Y)) = c :: (X2 ++ collapseWs false Y)
    rw [show collapseWs b (c :: (X2 ++ Y)) = c :: collapseWs false (X2 ++ Y) by
      simp [collapseWs, hc]]
    by_cases hX2 : X2 = []
    · subst hX2; simp
    · rw [ih false Y hX2 (fun x hx => hns x (by simp [hx]))]

lemma collapse_true_spaces : ∀ {W : List Char} (Y : List Char),
    (∀ x ∈ W, isPySpace x = true) → collapseWs true (W ++ Y) = collapseWs true Y := by
  intro W
  induction W with
  | nil => intro Y _; rfl
  | cons c W2 ih =>
    intro Y h
    have hc := h c (by simp)
    show collapseWs true (c :: (W2 ++ Y)) = collapseWs true Y
    rw [show collapseWs true (c :: (W2 ++ Y)) = collapseWs true (W2 ++ Y) by
      simp [collapseWs, hc]]
    exact ih Y (fun x hx => h x (by simp [hx]))

lemma collapse_head_nondigit {r : List Char}
    (h : ∀ a, r.head? = some a → a.isDigit = false) :
    ∀ a, (collapseWs false r).head? = some a → a.isDigit = false := by
  intro a ha
  cases r with
  | nil => simp [collapseWs] at ha
  | cons c t =>
    by_cases hc : isPySpace c = true
    · rw [show collapseWs false (c :: t) = ' ' :: collapseWs true t by
        simp [collapseWs, hc]] at ha
      simp at ha
      rw [← ha]
      decide
    · have hc2 : isPySpace c = false := by revert hc; cases isPySpace c <;> simp
      rw [show collapseWs false (c :: t) = c :: collapseWs false t by
        simp [collapseWs, hc2]] at ha
      simp at ha
      rw [← ha]
      exact h c rfl

lemma limitMatch_collapse {s : List Char} {v : Nat} {r : List Char} (b : Bool)
    (h : limitMatchAt s = some (v, r)) :
    limitMatchAt (collapseWs b s) = some (v, collapseWs false r) := by
  obtain ⟨L, W, D, hs, hL5, hciL, hW, hWs, hD, hDd, hv, hrh⟩ := limitMatch_decomp h
  subst hs
  have hLns : ∀ x ∈ L, isPySpace x = false :=
    ciPrefix_all_nonspace (by decide) hciL (by rw [hL5]; decide)
  have hLne : L ≠ [] := by
    intro he
    rw [he] at hL5
    simp at hL5
  rw [collapse_nonspace_head b _ hLne hLns]
  obtain ⟨w0, W2, hWsplit⟩ : ∃ w0 W2, W = w0 :: W2 := by
    cases W with
    | nil => exact absurd rfl hW
    | cons a b2 => exact ⟨a, b2, rfl⟩
  subst hWsplit
  have hw0 := hWs w0 (by simp)
  rw [show collapseWs false ((w0 :: W2) ++ (D ++ r)) =
    ' ' :: collapseWs true (W2 ++ (D ++ r)) by simp [collapseWs, hw0]]
  rw [collapse_true_spaces _ (fun x hx => hWs x (by simp [hx]))]
  have hDns : ∀ x ∈ D, isPySpace x = false := fun x hx => digit_not_space (hDd x hx)
  rw [collapse_nonspace_head true _ hD hDns]
  rw [show (' ' :: (D ++ collapseWs false r)) = ([' '] ++ (D ++ collapseWs false r))
    from rfl]
  rw [hv]
  exact limitMatch_build hciL hL5 (by simp)
    (by intro x hx; simp at hx; rw [hx]; rfl) hD hDd (collapse_head_nondigit hrh)

lemma hasLimit_collapse {P : Nat → Bool} : ∀ {s : List Char} {pw b : Bool},
    (b = true → pw = false) → hasLimitAux P pw s = true →
    hasLimitAux P pw (collapseWs b s) = true := by
  intro s
  induction s with
  | nil => intro pw b _ h; exact absurd h (by simp [hasLimitAux])
  | cons c t ih =>
    intro pw b halign h
    rcases hasLimit_cons_elim h with ⟨hpw, v, r, hm, hP⟩ | hrec
    · subst hpw
      by_cases hc : isPySpace c = true
      · rw [limitMatch_space_head t hc] at hm
        exact absurd hm (by simp)
      · have hc2 : isPySpace c = false := by revert hc; cases isPySpace c <;> simp
        have hcol : collapseWs b (c :: t) = c :: collapseWs false t := by
          simp [collapseWs, hc2]
        rw [hcol]
        have hmc := limitMatch_collapse b hm
        rw [hcol] at hmc
        exact hasLimit_here hmc hP
    · by_cases hc : isPySpace c = true
      · rw [space_not_word hc] at hrec
        cases b with
        | true =>
          have hpw := halign rfl
          subst hpw
          rw [show collapseWs true (c :: t) = collapseWs true t by simp [collapseWs, hc]]
          exact ih (fun _ => rfl) hrec
        | false =>
          rw [show collapseWs false (c :: t) = ' ' :: collapseWs true t by
            simp [collapseWs, hc]]
          have h2 := @ih false true (fun _ => rfl) hrec
          exact hasLimit_cons_of_rec h2
      · have hc2 : isPySpace c = false := by revert hc; cases isPySpace c <;> simp
        rw [show collapseWs b (c :: t) = c :: collapseWs false t by
          simp [collapseWs, hc2]]
        exact hasLimit_cons_of_rec (ih (fun hx => absurd hx (by simp)) hrec)

lemma limitMatch_append {s : List Char} {v : Nat} {r : List Char} (T : List Char)
    (h : limitMatchAt s = some (v, r))
    (hT : ∀ a, T.head? = some a → a.isDigit = false) :
    limitMatchAt (s ++ T) = some (v, r ++ T) := by
  obtain ⟨L, W, D, hs, hL5, hciL, hW, hWs, hD, hDd, hv, hrh⟩ := limitMatch_decomp h
  subst hs
  rw [show (L ++ (W ++ (D ++ r))) ++ T = L ++ (W ++ (D ++ (r ++ T))) by
    simp [List.append_assoc]]
  rw [hv]
  apply limitMatch_build hciL hL5 hW hWs hD hDd
  intro a ha
  cases r with
  | nil => exact hT a ha
  | cons b u =>
    simp at ha
    rw [← ha]
    exact hrh b rfl

lemma hasLimit_append {P : Nat → Bool} (T : List Char)
    (hT : ∀ a, T.head? = some a → a.isDigit = false) :
    ∀ {u : List Char} {pw : Bool}, hasLimitAux P pw u = true →
      hasLimitAux P pw (u ++ T) = true := by
  intro u
  induction u with
  | nil => intro pw h; exact absurd h (by simp [hasLimitAux])
  | cons c t ih =>
    intro pw h
    rcases hasLimit_cons_elim h with ⟨hpw, v, r, hm, hP⟩ | hrec
    · subst hpw
      exact hasLimit_here (limitMatch_append T hm hT) hP
    · exact hasLimit_cons_of_rec (ih hrec)

lemma replace_head_true : ∀ (f : Nat) (l : List Char),
    (replaceLimitsAux f true l).head? = l.head? := by
  intro f l
  cases f with
  | zero => rfl
  | succ f2 =>
    cases l with
    | nil => rfl
    | cons c t => rfl

lemma limitMatch_rest_head {s : List Char} {v : Nat} {r : List Char}
    (h : limitMatchAt s = some (v, r)) :
    ∀ a, r.head? = some a → a.isDigit = false := by
  obtain ⟨_, _, _, _, _, _, _, _, _, _, _, hrh⟩ := limitMatch_decomp h
  exact hrh

lemma hasLimit_replace {P : Nat → Bool} (hP : P 20 = true) :
    ∀ (f : Nat), ∀ {s : List Char} {pw : Bool} {n : Nat}, s.length ≤ f →
      findLimitAux pw s = some n →
      hasLimitAux P pw (replaceLimitsAux f pw s) = true := by
  intro f
  induction f with
  | zero =>
    intro s pw n hlen hfind
    have hnil : s = [] := List.length_eq_zero.mp (Nat.le_zero.mp hlen)
    subst hnil
    exact absurd hfind (by simp [findLimitAux])
  | succ f2 ih =>
    intro s pw n hlen hfind
    cases s with
    | nil => exact absurd hfind (by simp [findLimitAux])
    | cons c t =>
      cases hm : (if !pw then limitMatchAt (c :: t) else none) with
      | none =>
        have hfind2 : findLimitAux (isWordChar c) t = some n := by
          have h' : (match (if !pw then limitMatchAt (c :: t) else none) with
            | some (v, _) => some v
            | none => findLimitAux (isWordChar c) t) = some n := hfind
          rw [hm] at h'
          exact h'
        have hrepl : replaceLimitsAux (f2 + 1) pw (c :: t) =
            c :: replaceLimitsAux f2 (isWordChar c) t := by
          show (match (if !pw then limitMatchAt (c :: t) else none) with
            | some (_, rest) => limit20Str ++ replaceLimitsAux f2 true rest
            | none => c :: replaceLimitsAux f2 (isWordChar c) t) = _
          rw [hm]
        rw [hrepl]
        have hlen2 : t.length ≤ f2 := by
          have : t.length + 1 ≤ f2 + 1 := by simpa using hlen
          omega
        exact hasLimit_cons_of_rec (ih hlen2 hfind2)
      | some p =>
        obtain ⟨v, rest⟩ := p
        cases pw with
        | true =>
          rw [show (if !true then limitMatchAt (c :: t) else none) = none from rfl] at hm
          exact absurd hm (by simp)
        | false =>
          have hm2 : limitMatchAt (c :: t) = some (v, rest) := by
            rw [show (if !false then limitMatchAt (c :: t) else none) =
              limitMatchAt (c :: t) from rfl] at hm
            exact hm
          have hrepl : replaceLimitsAux (f2 + 1) false (c :: t) =
              limit20Str ++ replaceLimitsAux f2 true rest := by
            show (match (if !false then limitMatchAt (c :: t) else none) with
              | some (_, rest) => limit20Str ++ replaceLimitsAux f2 true rest
              | none => c :: replaceLimitsAux f2 (isWordChar c) t) = _
            rw [show (if !false then limitMatchAt (c :: t) else none) =
              limitMatchAt (c :: t) from rfl, hm2]
          rw [hrepl]
          have hX : ∀ a, (replaceLimitsAux f2 true rest).head? = some a →
              a.isDigit = false := by
            intro a ha
            rw [replace_head_true] at ha
            exact limitMatch_rest_head hm2 a ha
          have hb := @limitMatch_build (r"LIMIT".toList) [' ']
            (r"20".toList) (replaceLimitsAux f2 true rest)
            (by decide) (by decide) (by decide) (by decide) (by decide) (by decide) hX
          have h20 : digitsToNat (r"20".toList) = 20 := rfl
          rw [h20] at hb
          have heq : limit20Str ++ replaceLimitsAux f2 true rest =
              (r"LIMIT".toList) ++ ([' '] ++ ((r"20".toList) ++ replaceLimitsAux f2 true rest)) := rfl
          rw [heq]
          exact hasLimit_here hb hP

lemma ciPrefix_lower_prefixOf : ∀ {k s : List Char}, ciPrefix k s = true →
    k.isPrefixOf (pyLower s) = true := by
  intro k
  induction k with
  | nil => intro s _; simp [List.isPrefixOf]
  | cons a ks ih =>
    intro s h
    cases s with
    | nil => simp [ciPrefix] at h
    | cons c cs =>
      have h1 : ((c.toLower = a : Bool) && ciPrefix ks cs) = true := h
      rcases Bool.and_eq_true_iff.mp h1 with ⟨hc, hrest⟩
      have hc2 : c.toLower = a := by simpa using hc
      show ((a == c.toLower) && ks.isPrefixOf (pyLower cs)) = true
      rw [hc2]
      simp [ih hrest]

lemma find_contains : ∀ {s : List Char} {pw : Bool} {n : Nat},
    findLimitAux pw s = some n → containsSub limitKw (pyLower s) = true := by
  intro s
  induction s with
  | nil => intro pw n h; simp [findLimitAux] at h
  | cons c t ih =>
    intro pw n h
    cases hm : (if !pw then limitMatchAt (c :: t) else none) with
    | none =>
      have h2 : findLimitAux (isWordChar c) t = some n := by
        have h' : (match (if !pw then limitMatchAt (c :: t) else none) with
          | some (v, _) => some v
          | none => findLimitAux (isWordChar c) t) = some n := h
        rw [hm] at h'
        exact h'
      exact contains_cons _ (ih h2)
    | some p =>
      obtain ⟨v, r⟩ := p
      have hm2 : limitMatchAt (c :: t) = some (v, r) := by
        cases pw with
        | true =>
          rw [show (if !true then limitMatchAt (c :: t) else none) = none from rfl] at hm
          exact absurd hm (by simp)
        | false =>
          rw [show (if !false then limitMatchAt (c :: t) else none) =
            limitMatchAt (c :: t) from rfl] at hm
          exact hm
      have hci : ciPrefix limitKw (c :: t) = true := by
        by_cases hc : ciPrefix limitKw (c :: t) = true
        · exact hc
        · unfold limitMatchAt at hm2
          rw [if_neg hc] at hm2
          exact absurd hm2 (by simp)
      exact prefix_contains (ciPrefix_lower_prefixOf hci)

lemma hasLimit_sanitize {P : Nat → Bool} {sql2 : List Char}
    (h : hasLimitMatching P sql2 = true) :
    hasLimitMatching P (pyNormalize
      (if !(containsSub isAvailLit (pyLower sql2)) then
        (if containsSub whereLit (pyLower sql2) then sql2 ++ andClause
         else sql2 ++ whereClause)
       else sql2)) = true := by
  have hAnd : ∀ a, andClause.head? = some a → a.isDigit = false := by
    intro a ha
    rw [show andClause.head? = some ' ' from rfl] at ha
    injection ha with h2
    rw [← h2]
    decide
  have hWhere : ∀ a, whereClause.head? = some a → a.isDigit = false := by
    intro a ha
    rw [show whereClause.head? = some ' ' from rfl] at ha
    injection ha with h2
    rw [← h2]
    decide
  have hX : hasLimitAux P false
      (if !(containsSub isAvailLit (pyLower sql2)) then
        (if containsSub whereLit (pyLower sql2) then sql2 ++ andClause
         else sql2 ++ whereClause)
       else sql2) = true := by
    split
    · split
      · exact hasLimit_append andClause hAnd h
      · exact hasLimit_append whereClause hWhere h
    · exact h
  show hasLimitAux P false (collapseWs false (dropTrailing isPySpace
    (List.dropWhile isPySpace _))) = true
  exact hasLimit_collapse (fun hb => absurd hb (by simp))
    (hasLimit_dropTrailing (hasLimit_dropWhileSp hX))

/-- C4: for every SQL string accepted by `validate_and_sanitize_sql`,
(1) if the statement has no `\blimit\s+(\d+)` clause, the sanitized output
contains a `LIMIT` clause whose value is at most `MAX_LIMIT` (the appended
default is 10); (2) if its `LIMIT` value exceeds `MAX_LIMIT = 20`, the
sanitized output contains a `LIMIT` clause whose value equals `MAX_LIMIT`;
(3) a `LIMIT` value at or below the maximum leaves the statement unchanged
by `_enforce_limit`. -/
theorem agent_c4_limit_clamp (sql out : List Char)
    (hok : validate_and_sanitize_sql sql = .ok out) :
    (findLimitNum sql = none → hasLimitMatching leMaxLimit out = true) ∧
    (∀ n, findLimitNum sql = some n → MAX_LIMIT < n →
      hasLimitMatching eqMaxLimit out = true) ∧
    (∀ n, findLimitNum sql = some n → n ≤ MAX_LIMIT →
      _enforce_limit sql = .ok sql) := by
  obtain ⟨sql2, henf, hout⟩ := validate_ok_decomp hok
  refine ⟨?_, ?_, ?_⟩
  · intro hfind
    by_cases hc : containsSub limitKw (pyLower sql) = true
    · have henf2 : _enforce_limit sql = .error .attributeError := by
        unfold _enforce_limit
        rw [hc, hfind]
        rfl
      rw [henf2] at henf
      exact Except.noConfusion henf
    · have hc2 : containsSub limitKw (pyLower sql) = false := by
        revert hc
        cases containsSub limitKw (pyLower sql) <;> simp
      have henf2 : _enforce_limit sql = .ok (sql ++ default10Str) := by
        unfold _enforce_limit
        rw [hc2]
        rfl
      have hsql2 : sql2 = sql ++ default10Str := by
        rw [henf2] at henf
        injection henf with h2
        exact h2.symm
      subst hsql2
      rw [hout]
      apply hasLimit_sanitize
      have hT : ∀ pw : Bool, hasLimitAux leMaxLimit pw default10Str = true := by decide
      exact hasLimit_suffix hT sql false
  · intro n hfind hgt
    have hfind2 : findLimitAux false sql = some n := hfind
    have hc := find_contains hfind2
    have henf2 : _enforce_limit sql = .ok (replaceLimits sql) := by
      unfold _enforce_limit
      rw [hc, hfind]
      simp [hgt]
    have hsql2 : sql2 = replaceLimits sql := by
      rw [henf2] at henf
      injection henf with h2
      exact h2.symm
    subst hsql2
    rw [hout]
    apply hasLimit_sanitize
    exact @hasLimit_replace eqMaxLimit (by decide) sql.length sql false n
      (Nat.le_refl sql.length) hfind2
  · intro n hfind hle
    have hfind2 : findLimitAux false sql = some n := hfind
    have hc := find_contains hfind2
    unfold _enforce_limit
    rw [hc, hfind]
    simp [Nat.not_lt.mpr hle]

/-- C4, witness: `noLimitInput` has no `LIMIT` and its sanitized output
carries `LIMIT 10`; `bigLimitInput` asks for `LIMIT 100` and comes out with
`LIMIT 20`; `smallLimitInput` asks for `LIMIT 5` and `_enforce_limit`
returns it unchanged. -/
theorem agent_c4_limit_clamp_witness :
    hasLimitMatching leMaxLimit noLimitOut = true ∧
    hasLimitMatching eqMaxLimit bigLimitOut = true ∧
    _enforce_limit smallLimitInput = .ok smallLimitInput :=
  ⟨(agent_c4_limit_clamp noLimitInput noLimitOut rfl).1 rfl,
   (agent_c4_limit_clamp bigLimitInput bigLimitOut rfl).2.1 100 rfl (by decide),
   (agent_c4_limit_clamp smallLimitInput smallLimitInput rfl).2.2 5 rfl (by decide)⟩

lemma rankLoop_results (encode : List Char → Nat)
    (llmCall : LLMCand → Option (List Char))
    (parseScore : List Char → Option (Int × List (List Char)))
    (jobDesc : List Char) :
    ∀ cands : List LLMCand,
      (rankLoop encode llmCall parseScore jobDesc cands).1 =
        cands.map (rankOneCandidate llmCall parseScore) := by
  intro cands
  induction cands with
  | nil => rfl
  | cons c cs ih =>
    unfold rankLoop
    cases h : llmCall c with
    | none => simp [h, ih]
    | some content =>
      cases h2 : parseScore content with
      | none => simp [h, h2, ih]
      | some v => simp [h, h2, ih]

/-- C5: the result list of the LLM scoring loop is the independent
per-candidate map of `rankOneCandidate` in batch order (so no candidate's
outcome influences another's, and the loop never stops early); the final
ranked list is a permutation of that map; and any candidate whose LLM call
or JSON parse fails contributes exactly the entry with score 0 and reasons
`["Ranking error"]`. -/
theorem ranker_c5_failure_isolation (encode : List Char → Nat)
    (llmCall : LLMCand → Option (List Char))
    (parseScore : List Char → Option (Int × List (List Char)))
    (jobDesc : List Char) (cands : List LLMCand) :
    (rankLoop encode llmCall parseScore jobDesc cands).1 =
      cands.map (rankOneCandidate llmCall parseScore) ∧
    List.Perm (final_rank_with_llm encode llmCall parseScore jobDesc cands).1
      (cands.map (rankOneCandidate llmCall parseScore)) ∧
    (∀ c ∈ cands, (llmCall c).bind parseScore = none →
      rankOneCandidate llmCall parseScore c =
        ⟨c.id, c.slug, 0, [rankingErrorMsg]⟩) := by
  refine ⟨rankLoop_results encode llmCall parseScore jobDesc cands, ?_, ?_⟩
  · show List.Perm (sortRankEntries (rankLoop encode llmCall parseScore jobDesc cands).1)
      (cands.map (rankOneCandidate llmCall parseScore))
    rw [rankLoop_results encode llmCall parseScore jobDesc cands]
    exact List.perm_insertionSort _ _
  · intro c _ hfail
    cases h : llmCall c with
    | none => simp [rankOneCandidate, h]
    | some content =>
      cases h2 : parseScore content with
      | none => simp [rankOneCandidate, h, h2]
      | some v =>
        rw [h] at hfail
        have h3 : parseScore content = none := hfail
        rw [h2] at h3
        exact absurd h3 (by simp)

/-- C5, witness: in the stub batch, candidate 1's call fails and yields the
zero-score error entry while candidate 2 is still scored normally. -/
theorem ranker_c5_failure_isolation_witness :
    (rankLoop c5Encode c5LlmCall c5Parse c5Job c5Cands).1 =
      c5Cands.map (rankOneCandidate c5LlmCall c5Parse) ∧
    rankOneCandidate c5LlmCall c5Parse ⟨1, r"a".toList, r"ra".toList⟩ =
      ⟨1, r"a".toList, 0, [rankingErrorMsg]⟩ :=
  ⟨(ranker_c5_failure_isolation c5Encode c5LlmCall c5Parse c5Job c5Cands).1,
   (ranker_c5_failure_isolation c5Encode c5LlmCall c5Parse c5Job c5Cands).2.2
     ⟨1, r"a".toList, r"ra".toList⟩ (by decide) rfl⟩

/-- C7: the PDF branch invokes OCR exactly when the stripped embedded text
layer is shorter than 50 characters; without OCR the embedded text is
returned, with OCR the OCR output is. -/
theorem parser_c7_ocr_threshold (pages : List (List Char)) (ocrText : List Char) :
    ((extractPdfText pages ocrText).2 = true ↔
      (pyStrip (parse_pdf_text pages)).length < 50) ∧
    ((extractPdfText pages ocrText).2 = false →
      (extractPdfText pages ocrText).1 = parse_pdf_text pages) ∧
    ((extractPdfText pages ocrText).2 = true →
      (extractPdfText pages ocrText).1 = ocrText) := by
  unfold extractPdfText
  by_cases h : (pyStrip (parse_pdf_text pages)).length < 50
  · simp [h]
  · simp [h]

/-- C7, witness: a 10-character page triggers OCR; a 78-character page does
not and its embedded text is returned. -/
theorem parser_c7_ocr_threshold_witness :
    (extractPdfText c7ShortPages c7Ocr).2 = true ∧
    (extractPdfText c7LongPages c7Ocr).1 = parse_pdf_text c7LongPages :=
  ⟨(parser_c7_ocr_threshold c7ShortPages c7Ocr).1.mpr (by decide),
   (parser_c7_ocr_threshold c7LongPages c7Ocr).2.1 (by decide)⟩

/-- C8, counterexample: on the input `ccc` the extractor returns the
vocabulary entry `c++` although `c++` never occurs in the text (not even as
a substring): on Python 3.11+ the uncompilable-as-intended pattern
`\bc++\b` is a possessive quantifier matching any maximal run of `c`s. -/
theorem parser_c8_counterexample :
    (extract_skills cccInput).contains cppTok = true ∧
    containsSub cppTok (pyLower cccInput) = false :=
  ⟨by decide, by decide⟩

/-- C8, amended: the returned list consists of the vocabulary entries whose
compiled regex matches the lowercased text, sorted and duplicate-free and a
lowercase subset of the vocabulary; for every entry other than `c++` the
regex is the intended case-insensitive whole-word test, but for `c++` the
pattern `\bc++\b` matches any maximal run of `c` characters, so `c++` can be
reported for texts not containing it. -/
theorem parser_c8_skills_amended (text s : List Char) :
    (s ∈ extract_skills text ↔
      s ∈ SKILL_LIST ∧ skillRegexMatch s (pyLower text) = true) ∧
    (s ≠ cppTok →
      (s ∈ extract_skills text ↔
        s ∈ SKILL_LIST ∧ wordMatchPlain s false (pyLower text) = true)) ∧
    (cppTok ∈ extract_skills text ↔ cppMatch (pyLower text) = true) ∧
    List.Sorted (fun a b => lexLe a b = true) (extract_skills text) ∧
    List.Nodup (extract_skills text) ∧
    (∀ u ∈ extract_skills text, u ∈ SKILL_LIST ∧ pyLower u = u) := by
  have hmem : ∀ u : List Char, u ∈ extract_skills text ↔
      u ∈ SKILL_LIST ∧ skillRegexMatch u (pyLower text) = true := by
    intro u
    unfold extract_skills
    rw [List.Perm.mem_iff (List.perm_insertionSort _ _)]
    exact List.mem_filter
  refine ⟨hmem s, ?_, ?_, ?_, ?_, ?_⟩
  · intro hne
    rw [hmem s]
    unfold skillRegexMatch
    rw [if_neg hne]
  · rw [hmem cppTok]
    have h1 : cppTok ∈ SKILL_LIST := by decide
    have h2 : skillRegexMatch cppTok (pyLower text) = cppMatch (pyLower text) := by
      unfold skillRegexMatch
      rw [if_pos rfl]
    rw [h2]
    exact ⟨fun h => h.2, fun h => ⟨h1, h⟩⟩
  · exact List.sorted_insertionSort _ _
  · exact (List.perm_insertionSort _ _).nodup_iff.mpr
      (List.Nodup.filter _ (by decide))
  · intro u hu
    have h1 := (hmem u).mp hu
    have hL : ∀ v ∈ SKILL_LIST, pyLower v = v := by decide
    exact ⟨h1.1, hL u h1.1⟩

/-- C8, witness: on `c8WitnessText` the entry `python` is reported exactly
because it occurs as a whole word in the lowercased text, and the returned
list is duplicate-free. -/
theorem parser_c8_skills_amended_witness :
    (r"python".toList ∈ extract_skills c8WitnessText ↔
      r"python".toList ∈ SKILL_LIST ∧
        wordMatchPlain (r"python".toList) false (pyLower c8WitnessText) = true) ∧
    List.Nodup (extract_skills c8WitnessText) :=
  ⟨(parser_c8_skills_amended c8WitnessText (r"python".toList)).2.1 (by decide),
   (parser_c8_skills_amended c8WitnessText (r"python".toList)).2.2.2.2.1⟩

/-- C9, counterexample: a job post with `ranking_status = "failed"` and a
non-null `candidate_ranking_data` is reachable — `ranking_algo` persists the
data with status `ranked`, and a later exception in the same task run (the
second save or the cache invalidation) sends the task into its `except`
branch, which overwrites the status with `failed` without clearing the
stored data — so the stated iff-invariant fails for job posts. -/
theorem tasks_c9_counterexample :
    JobReach ⟨.failed, some 0⟩ ∧ ¬ jobInvariant ⟨.failed, some 0⟩ :=
  ⟨JobReach.task ⟨.not_ranked, none⟩ ⟨.failed, some 0⟩ (.algoOk 0 false)
      JobReach.init (by constructor <;> simp) (by simp [rankTaskTrace]),
   fun h => by simpa using h.mp (by simp)⟩

/-- C9, amended: at every reachable persisted state, a candidate profile's
`resume_data` is non-null exactly when its `parsing_status` is `parsed`; for
job posts only one direction survives: whenever `ranking_status` is
`ranked`, `candidate_ranking_data` is non-null (the converse fails, see the
counterexample). -/
theorem tasks_c9_amended :
    (∀ s, CandReach s → candInvariant s) ∧
    (∀ s, JobReach s → s.ranking_status = .ranked →
      s.candidate_ranking_data ≠ none) := by
  constructor
  · intro s hreach
    induction hreach with
    | init hasFile => simp [candInvariant]
    | task s x o hreach hguard hmem ih =>
      have hfile : s.has_resume_file = true := hguard.2.2
      have hdata : s.resume_data = none := by
        by_cases hp : s.parsing_status = .parsed
        · by_contra hd
          exact hguard.1 ⟨hp, hd⟩
        · by_contra hd
          exact hp (ih.mp hd)
      unfold parseTaskTrace at hmem
      rw [hfile] at hmem
      simp at hmem
      cases o with
      | parseOk d =>
        simp at hmem
        rcases hmem with h | h <;> subst h <;> simp [candInvariant, hdata]
      | parseFail =>
        simp at hmem
        rcases hmem with h | h <;> subst h <;> simp [candInvariant, hdata]
    | sweep s hreach hstat ih =>
      have hdata : s.resume_data = none := by
        by_contra hd
        have hp := ih.mp hd
        rw [hstat] at hp
        exact absurd hp (by simp)
      simp [candInvariant, hdata]
  · intro s hreach
    induction hreach with
    | init => intro h; exact absurd h (by simp)
    | task s x o hreach hguard hmem ih =>
      cases o with
      | algoFail =>
        simp [rankTaskTrace] at hmem
        rcases hmem with h | h <;> subst h <;> intro hr <;> exact absurd hr (by simp)
      | algoOk d postOk =>
        simp [rankTaskTrace] at hmem
        rcases hmem with h | h
        · subst h
          intro hr
          exact absurd hr (by simp)
        · cases postOk with
          | true =>
            simp at h
            subst h
            intro _
            simp
          | false =>
            simp at h
            rcases h with h | h <;> subst h
            · intro _
              simp
            · intro hr
              exact absurd hr (by simp)
    | sweep s hreach hstat ih =>
      intro hr
      exact absurd hr (by simp)

/-- C9, witness: the amended invariant evaluated on concretely reachable
states — a parsed candidate carries data, and a ranked job post carries
data. -/
theorem tasks_c9_amended_witness :
    candInvariant ⟨.parsed, some 7, true⟩ ∧ (some 5 : Option Nat) ≠ none :=
  ⟨tasks_c9_amended.1 ⟨.parsed, some 7, true⟩
      (CandReach.task ⟨.not_parsed, none, true⟩ ⟨.parsed, some 7, true⟩ (.parseOk 7)
        (CandReach.init true) (by refine ⟨?_, ?_, ?_⟩ <;> simp)
        (by simp [parseTaskTrace])),
   tasks_c9_amended.2 ⟨.ranked, some 5⟩
      (JobReach.task ⟨.not_ranked, none⟩ ⟨.ranked, some 5⟩ (.algoOk 5 true)
        JobReach.init (by constructor <;> simp) (by simp [rankTaskTrace]))
      rfl⟩

lemma backfill_cases (selected eligible sel : List CandRecord)
    (hsel : sel =
      if selected.length < 3 then
        selected ++
          (eligible.filter
            (fun c => !((selected.map (fun x => x.id)).contains c.id))).take
            (3 - selected.length)
      else selected) :
    (selected.length ≤ 5 → sel.length ≤ 5) ∧
    (3 ≤ selected.length → sel = selected) ∧
    (selected.length < 3 →
      sel = selected ++
        (eligible.filter
          (fun c => !((selected.map (fun x => x.id)).contains c.id))).take
          (3 - selected.length) ∧
      sel.length ≤ 3 ∧
      (sel.length < 3 → ∀ c ∈ eligible, c.id ∈ sel.map (fun x => x.id))) := by
  refine ⟨?_, ?_, ?_⟩
  · intro h5
    rw [hsel]
    by_cases hlt : selected.length < 3
    · rw [if_pos hlt, List.length_append, List.length_take]
      have hmin := Nat.min_le_left (3 - selected.length)
        (eligible.filter
          (fun c => !((selected.map (fun x => x.id)).contains c.id))).length
      omega
    · rw [if_neg hlt]
      exact h5
  · intro h3
    rw [hsel, if_neg (by omega)]
  · intro hlt
    have heq : sel = selected ++
        (eligible.filter
          (fun c => !((selected.map (fun x => x.id)).contains c.id))).take
          (3 - selected.length) := by
      rw [hsel, if_pos hlt]
    refine ⟨heq, ?_, ?_⟩
    · rw [heq, List.length_append, List.length_take]
      have hmin := Nat.min_le_left (3 - selected.length)
        (eligible.filter
          (fun c => !((selected.map (fun x => x.id)).contains c.id))).length
      omega
    · intro hlen c hc
      have hlen2 : (eligible.filter
          (fun c => !((selected.map (fun x => x.id)).contains c.id))).length <
            3 - selected.length := by
        rw [heq, List.length_append, List.length_take] at hlen
        omega
      have htk : (eligible.filter
          (fun c => !((selected.map (fun x => x.id)).contains c.id))).take
            (3 - selected.length) =
          eligible.filter
            (fun c => !((selected.map (fun x => x.id)).contains c.id)) :=
        List.take_of_length_le (by omega)
      rw [heq, htk, List.map_append]
      by_cases hb : ((selected.map (fun x => x.id)).contains c.id) = true
      · exact List.mem_append_left _ (List.mem_of_elem_eq_true hb)
      · have hb2 : ((selected.map (fun x => x.id)).contains c.id) = false := by
          revert hb
          cases (selected.map (fun x => x.id)).contains c.id <;> simp
        have hcF : c ∈ eligible.filter
            (fun c => !((selected.map (fun x => x.id)).contains c.id)) := by
          rw [List.mem_filter]
          exact ⟨hc, by rw [hb2]; rfl⟩
        exact List.mem_append_right _ (List.mem_map_of_mem (fun x => x.id) hcF)

lemma length_sortScoredDesc (l : List (Nat × CandRecord)) :
    (sortScoredDesc l).length = l.length :=
  (List.perm_insertionSort _ _).length_eq

/-- C6: the selection of `ranking_algo` never exceeds 5 candidates; when at
least 3 candidates survive the nonzero-overlap filter it is exactly the
first five of the stable descending sort of the scored list (a permutation
of the scored pool, every selected score dominating every dropped score);
when fewer than 3 survive, the scored ones are kept and eligible candidates
not already selected are backfilled in pool order up to 3, and if still
fewer than 3 are selected then every eligible candidate is already among
the selected ids — the pool is exhausted. -/
theorem ranker_c6_selection (expanded : List (List Char))
    (workplaceText jobTypeText : List Char) (eligible : List CandRecord) :
    (ranking_selection expanded workplaceText jobTypeText eligible).length ≤ 5 ∧
    (3 ≤ (scoredList expanded workplaceText jobTypeText eligible).length →
      ranking_selection expanded workplaceText jobTypeText eligible =
        ((sortScoredDesc (scoredList expanded workplaceText jobTypeText
          eligible)).take 5).map Prod.snd ∧
      List.Perm
        (sortScoredDesc (scoredList expanded workplaceText jobTypeText eligible))
        (scoredList expanded workplaceText jobTypeText eligible) ∧
      ∀ p ∈ (sortScoredDesc (scoredList expanded workplaceText jobTypeText
          eligible)).take 5,
        ∀ q ∈ (sortScoredDesc (scoredList expanded workplaceText jobTypeText
            eligible)).drop 5,
          q.1 ≤ p.1) ∧
    ((scoredList expanded workplaceText jobTypeText eligible).length < 3 →
      ranking_selection expanded workplaceText jobTypeText eligible =
        ((sortScoredDesc (scoredList expanded workplaceText jobTypeText
          eligible)).take 5).map Prod.snd ++
          (eligible.filter (fun c =>
            !(((((sortScoredDesc (scoredList expanded workplaceText jobTypeText
              eligible)).take 5).map Prod.snd).map
                (fun x => x.id)).contains c.id))).take
            (3 - (((sortScoredDesc (scoredList expanded workplaceText jobTypeText
              eligible)).take 5).map Prod.snd).length) ∧
      (ranking_selection expanded workplaceText jobTypeText eligible).length ≤ 3 ∧
      ((ranking_selection expanded workplaceText jobTypeText eligible).length < 3 →
        ∀ c ∈ eligible, c.id ∈
          (ranking_selection expanded workplaceText jobTypeText eligible).map
            (fun x => x.id))) := by
  have hbf := backfill_cases
    (((sortScoredDesc (scoredList expanded workplaceText jobTypeText
      eligible)).take 5).map Prod.snd)
    eligible
    (ranking_selection expanded workplaceText jobTypeText eligible)
    rfl
  have hlen : (((sortScoredDesc (scoredList expanded workplaceText jobTypeText
      eligible)).take 5).map Prod.snd).length =
      min 5 (scoredList expanded workplaceText jobTypeText eligible).length := by
    rw [List.length_map, List.length_take, length_sortScoredDesc]
  refine ⟨?_, ?_, ?_⟩
  · exact hbf.1 (by omega)
  · intro h3
    refine ⟨hbf.2.1 (by rw [hlen]; omega), List.perm_insertionSort _ _, ?_⟩
    have hpw : List.Pairwise (fun a b : Nat × CandRecord => b.1 ≤ a.1)
        ((sortScoredDesc (scoredList expanded workplaceText jobTypeText
          eligible)).take 5 ++
          (sortScoredDesc (scoredList expanded workplaceText jobTypeText
            eligible)).drop 5) := by
      rw [List.take_append_drop]
      exact List.sorted_insertionSort _ _
    exact fun p hp q hq => (List.pairwise_append.mp hpw).2.2 p hp q hq
  · intro hc3
    exact hbf.2.2 (by rw [hlen]; omega)

/-- C6, witness: with four scored candidates the selection is exactly the
top of the sorted scored list; with a single zero-overlap candidate the
backfill selects it, and the exhaustion property holds for it. -/
theorem ranker_c6_selection_witness :
    ranking_selection c6Exp c6W c6T c6Eligible =
      ((sortScoredDesc (scoredList c6Exp c6W c6T c6Eligible)).take 5).map
        Prod.snd ∧
    (⟨9, [], [], [], []⟩ : CandRecord).id ∈
      (ranking_selection c6Exp c6W c6T c6SmallElig).map (fun x => x.id) :=
  ⟨((ranker_c6_selection c6Exp c6W c6T c6Eligible).2.1 (by decide)).1,
   ((ranker_c6_selection c6Exp c6W c6T c6SmallElig).2.2 (by decide)).2.2
     (by decide) ⟨9, [], [], [], []⟩ (by decide)⟩
